import Mathlib

/-!
Verification of the symbol-table ADT (`symtable.h`) against its two
implementations: the linked-list table of `symtablelist.c` and the
expanding chained hash table (`SymTable_resize` version).

Modeling conventions for the shallow embedding:
* A C key string is the list of its byte values before the terminating
  NUL byte (`char` is unsigned on the target platform, so a byte is a
  `Nat` below 256; the hash quantifies over arbitrary `Nat` bytes).
* A C `void *` value reference is `Option V`, with `none` for `NULL`.
* `size_t` arithmetic in the hash function wraps modulo `2 ^ 64`.
* Allocation failure of the resize's `calloc` is an explicit boolean
  oracle passed to `SymTable_put` / `SymTable_resize`.
* Undefined behavior from dereferencing a NULL table handle is modeled
  by an `Option`-valued result (`none` = the dereference of NULL).
-/

set_option maxRecDepth 40000

/-- A C key string: the list of byte values before the terminating NUL. -/
abbrev Key : Type := List Nat

/-- A C `void *` value reference: `none` models the `NULL` pointer. -/
abbrev Ptr (V : Type) : Type := Option V

/-- The scan of a binding chain shared by `contains`/`get`: the first
binding whose key compares equal (`strcmp(...) == 0`), if any, with its
stored value reference. -/
def chainAssoc {V : Type} : List (Key × Ptr V) → Key → Option (Ptr V)
  | [], _ => none
  | (k', v) :: rest, k => if k' = k then some v else chainAssoc rest k

/-- The scan of `SymTable_replace` on one chain: swap the stored value
reference of the first binding with an equal key and return the old
reference; if no key matches, the chain is unchanged and `NULL` (`none`)
is returned. -/
def chainReplace {V : Type} : List (Key × Ptr V) → Key → Ptr V →
    List (Key × Ptr V) × Ptr V
  | [], _, _ => ([], none)
  | (k', w) :: rest, k, v =>
    if k' = k then ((k', v) :: rest, w)
    else
      let r := chainReplace rest k v
      ((k', w) :: r.1, r.2)

/-- The scan of `SymTable_remove` on one chain (predecessor tracking):
unlink the first binding with an equal key; `some w` records that a
binding holding value reference `w` was unlinked, `none` that no key
matched and the chain is untouched. -/
def chainRemove {V : Type} : List (Key × Ptr V) → Key →
    List (Key × Ptr V) × Option (Ptr V)
  | [], _ => ([], none)
  | (k', w) :: rest, k =>
    if k' = k then (rest, some w)
    else
      let r := chainRemove rest k
      ((k', w) :: r.1, r.2)

namespace ListTable

/-- `struct SymTable` of symtablelist.c: the chain of bindings from
`head` (each binding is its key copy and value reference) together with
the stored `length` counter. -/
structure SymTable (V : Type) where
  head : List (Key × Ptr V)
  length : Nat
deriving DecidableEq

/-- `SymTable_new` of symtablelist.c (allocation succeeding). -/
def SymTable_new (V : Type) : SymTable V := ⟨[], 0⟩

/-- `SymTable_getLength` of symtablelist.c. -/
def SymTable_getLength {V : Type} (t : SymTable V) : Nat := t.length

/-- `SymTable_contains` of symtablelist.c: linear scan, `true` for 1. -/
def SymTable_contains {V : Type} (t : SymTable V) (k : Key) : Bool :=
  (chainAssoc t.head k).isSome

/-- `SymTable_get` of symtablelist.c: linear scan returning the stored
value reference of the first equal key, `NULL` (`none`) if absent. -/
def SymTable_get {V : Type} (t : SymTable V) (k : Key) : Ptr V :=
  (chainAssoc t.head k).getD none

/-- `SymTable_put` of symtablelist.c (key/binding allocations
succeeding): duplicate keys are rejected with return 0 (`false`);
otherwise the new binding is prepended and `length` incremented,
return 1 (`true`). -/
def SymTable_put {V : Type} (t : SymTable V) (k : Key) (v : Ptr V) :
    SymTable V × Bool :=
  if SymTable_contains t k then (t, false)
  else (⟨(k, v) :: t.head, t.length + 1⟩, true)

/-- `SymTable_replace` of symtablelist.c. -/
def SymTable_replace {V : Type} (t : SymTable V) (k : Key) (v : Ptr V) :
    SymTable V × Ptr V :=
  let r := chainReplace t.head k v
  (⟨r.1, t.length⟩, r.2)

/-- `SymTable_remove` of symtablelist.c: unlink the binding, decrement
`length` and return its value reference if the key is found, otherwise
return `NULL` with no side effect. -/
def SymTable_remove {V : Type} (t : SymTable V) (k : Key) :
    SymTable V × Ptr V :=
  match chainRemove t.head k with
  | (h', some w) => (⟨h', t.length - 1⟩, w)
  | (_, none) => (t, none)

/-- `SymTable_map` of symtablelist.c: the callback (with its mutable
`pvExtra` state threaded explicitly) applied along the chain from
`head`. -/
def SymTable_map {V σ : Type} (t : SymTable V) (f : Key → Ptr V → σ → σ)
    (s : σ) : σ :=
  t.head.foldl (fun acc b => f b.1 b.2 acc) s

/-- `SymTable_free` of symtablelist.c on a possibly-NULL handle. The
source initializes `current = oSymTable->head` (line 54) BEFORE the
`if (!oSymTable) return;` check (line 57); the dereference of a NULL
handle is undefined behavior, modeled as `none`. -/
def SymTable_free {V : Type} (h : Option (SymTable V)) : Option Unit :=
  (h.map SymTable.head).map (fun _current => ())

/-- Well-formedness maintained by symtablelist.c: the `length` field
counts the bindings on the chain, and no two bindings share a key. -/
def WF {V : Type} (t : SymTable V) : Prop :=
  t.length = t.head.length ∧ (t.head.map Prod.fst).Nodup

instance {V : Type} [DecidableEq V] (t : SymTable V) : Decidable (WF t) := by
  unfold WF; infer_instance

end ListTable

/-! ### Lemmas about the chain scans -/

theorem chainAssoc_eq_none_iff {V : Type} (l : List (Key × Ptr V)) (k : Key) :
    chainAssoc l k = none ↔ k ∉ l.map Prod.fst := by
  induction l with
  | nil => simp [chainAssoc]
  | cons b rest ih =>
    obtain ⟨k', v⟩ := b
    by_cases h : k' = k
    · subst h
      simp [chainAssoc]
    · simp [chainAssoc, h, ih, Ne.symm h]

theorem chainAssoc_isSome_iff {V : Type} (l : List (Key × Ptr V)) (k : Key) :
    (chainAssoc l k).isSome = true ↔ k ∈ l.map Prod.fst := by
  rw [Option.isSome_iff_ne_none, ne_eq, chainAssoc_eq_none_iff, not_not]

theorem chainAssoc_mem {V : Type} {l : List (Key × Ptr V)} {k : Key}
    {v : Ptr V} (h : chainAssoc l k = some v) : (k, v) ∈ l := by
  induction l with
  | nil => simp [chainAssoc] at h
  | cons b rest ih =>
    obtain ⟨k', w⟩ := b
    by_cases hk : k' = k
    · subst hk
      simp only [chainAssoc, if_true, eq_self_iff_true, Option.some.injEq] at h
      subst h
      exact List.mem_cons_self ..
    · simp only [chainAssoc, if_neg hk] at h
      exact List.mem_cons_of_mem _ (ih h)

theorem chainAssoc_of_nodup_of_mem {V : Type} {l : List (Key × Ptr V)}
    {k : Key} {v : Ptr V} (hn : (l.map Prod.fst).Nodup) (h : (k, v) ∈ l) :
    chainAssoc l k = some v := by
  induction l with
  | nil => simp at h
  | cons b rest ih =>
    obtain ⟨k', w⟩ := b
    simp only [List.map_cons, List.nodup_cons] at hn
    rcases List.mem_cons.mp h with h | h
    · rw [Prod.mk.injEq] at h
      obtain ⟨h1, h2⟩ := h
      subst h1
      subst h2
      simp [chainAssoc]
    · have hk : k' ≠ k := by
        rintro rfl
        exact hn.1 (List.mem_map.mpr ⟨(k', v), h, rfl⟩)
      simp [chainAssoc, hk, ih hn.2 h]

theorem chainAssoc_perm {V : Type} {l l' : List (Key × Ptr V)}
    (hp : l.Perm l') (hn : (l.map Prod.fst).Nodup) (k : Key) :
    chainAssoc l k = chainAssoc l' k := by
  cases hl : chainAssoc l k with
  | none =>
    rw [chainAssoc_eq_none_iff] at hl
    rw [eq_comm, chainAssoc_eq_none_iff]
    exact fun hmem => hl ((hp.map Prod.fst).mem_iff.mpr hmem)
  | some v =>
    have hmem : (k, v) ∈ l' := hp.mem_iff.mp (chainAssoc_mem hl)
    exact (chainAssoc_of_nodup_of_mem ((hp.map Prod.fst).nodup_iff.mp hn)
      hmem).symm

theorem chainReplace_snd {V : Type} (l : List (Key × Ptr V)) (k : Key)
    (v : Ptr V) : (chainReplace l k v).2 = (chainAssoc l k).getD none := by
  induction l with
  | nil => simp [chainReplace, chainAssoc]
  | cons b rest ih =>
    obtain ⟨k', w⟩ := b
    by_cases h : k' = k <;> simp [chainReplace, chainAssoc, h, ih]

theorem chainReplace_fst_of_absent {V : Type} {l : List (Key × Ptr V)}
    {k : Key} (v : Ptr V) (h : chainAssoc l k = none) :
    (chainReplace l k v).1 = l := by
  induction l with
  | nil => simp [chainReplace]
  | cons b rest ih =>
    obtain ⟨k', w⟩ := b
    by_cases hk : k' = k
    · simp [chainAssoc, hk] at h
    · simp only [chainAssoc, if_neg hk] at h
      simp [chainReplace, hk, ih h]

theorem chainAssoc_chainReplace_self {V : Type} (l : List (Key × Ptr V))
    (k : Key) (v : Ptr V) :
    chainAssoc (chainReplace l k v).1 k =
      (chainAssoc l k).map (fun _ => v) := by
  induction l with
  | nil => simp [chainReplace, chainAssoc]
  | cons b rest ih =>
    obtain ⟨k', w⟩ := b
    by_cases h : k' = k <;> simp [chainReplace, chainAssoc, h, ih]

theorem chainAssoc_chainReplace_ne {V : Type} (l : List (Key × Ptr V))
    {k k' : Key} (v : Ptr V) (h : k' ≠ k) :
    chainAssoc (chainReplace l k v).1 k' = chainAssoc l k' := by
  induction l with
  | nil => simp [chainReplace]
  | cons b rest ih =>
    obtain ⟨k₀, w⟩ := b
    by_cases hk : k₀ = k
    · subst hk
      simp [chainReplace, chainAssoc, Ne.symm h]
    · by_cases hk' : k₀ = k' <;>
        simp [chainReplace, chainAssoc, hk, hk', ih, h]

theorem chainReplace_map_fst {V : Type} (l : List (Key × Ptr V)) (k : Key)
    (v : Ptr V) : (chainReplace l k v).1.map Prod.fst = l.map Prod.fst := by
  induction l with
  | nil => simp [chainReplace]
  | cons b rest ih =>
    obtain ⟨k', w⟩ := b
    by_cases h : k' = k <;> simp [chainReplace, h, ih]

theorem chainRemove_snd {V : Type} (l : List (Key × Ptr V)) (k : Key) :
    (chainRemove l k).2 = chainAssoc l k := by
  induction l with
  | nil => simp [chainRemove, chainAssoc]
  | cons b rest ih =>
    obtain ⟨k', w⟩ := b
    by_cases h : k' = k <;> simp [chainRemove, chainAssoc, h, ih]

theorem chainRemove_fst_of_absent {V : Type} {l : List (Key × Ptr V)}
    {k : Key} (h : chainAssoc l k = none) : (chainRemove l k).1 = l := by
  induction l with
  | nil => simp [chainRemove]
  | cons b rest ih =>
    obtain ⟨k', w⟩ := b
    by_cases hk : k' = k
    · simp [chainAssoc, hk] at h
    · simp only [chainAssoc, if_neg hk] at h
      simp [chainRemove, hk, ih h]

theorem chainRemove_sublist {V : Type} (l : List (Key × Ptr V)) (k : Key) :
    (chainRemove l k).1.Sublist l := by
  induction l with
  | nil => simp [chainRemove]
  | cons b rest ih =>
    obtain ⟨k', w⟩ := b
    by_cases h : k' = k
    · simp only [chainRemove, if_pos h]
      exact List.sublist_cons_self _ _
    · simp only [chainRemove, if_neg h]
      exact List.Sublist.cons₂ _ (ih)

theorem chainRemove_perm {V : Type} {l : List (Key × Ptr V)} {k : Key}
    {w : Ptr V} (h : chainAssoc l k = some w) :
    l.Perm ((k, w) :: (chainRemove l k).1) := by
  induction l with
  | nil => simp [chainAssoc] at h
  | cons b rest ih =>
    obtain ⟨k', v⟩ := b
    by_cases hk : k' = k
    · subst hk
      simp only [chainAssoc, if_true, eq_self_iff_true, Option.some.injEq] at h
      subst h
      simp [chainRemove]
    · simp only [chainAssoc, if_neg hk] at h
      simp only [chainRemove, if_neg hk]
      exact ((ih h).cons _).trans (List.Perm.swap _ _ _)

theorem chainAssoc_chainRemove_self {V : Type} {l : List (Key × Ptr V)}
    {k : Key} (hn : (l.map Prod.fst).Nodup) :
    chainAssoc (chainRemove l k).1 k = none := by
  cases hl : chainAssoc l k with
  | none => rw [chainRemove_fst_of_absent hl, hl]
  | some w =>
    rw [chainAssoc_eq_none_iff]
    intro hmem
    have hperm := chainRemove_perm hl
    have hn' : ((k, w) :: (chainRemove l k).1).map Prod.fst |>.Nodup :=
      (hperm.map Prod.fst).nodup_iff.mp hn
    simp only [List.map_cons, List.nodup_cons] at hn'
    exact hn'.1 hmem

theorem chainAssoc_chainRemove_ne {V : Type} (l : List (Key × Ptr V))
    {k k' : Key} (h : k' ≠ k) :
    chainAssoc (chainRemove l k).1 k' = chainAssoc l k' := by
  induction l with
  | nil => simp [chainRemove]
  | cons b rest ih =>
    obtain ⟨k₀, w⟩ := b
    by_cases hk : k₀ = k
    · subst hk
      simp [chainRemove, chainAssoc, Ne.symm h]
    · by_cases hk' : k₀ = k' <;>
        simp [chainRemove, chainAssoc, hk, hk', ih, h]

theorem chainRemove_length {V : Type} {l : List (Key × Ptr V)} {k : Key}
    {w : Ptr V} (h : chainAssoc l k = some w) :
    (chainRemove l k).1.length + 1 = l.length :=
  ((chainRemove_perm h).length_eq).symm

/-! ### Lemmas about positional bucket-array surgery -/

theorem getD_set_self {α : Type} (bs : List α) (i : Nat) (c d : α)
    (h : i < bs.length) : (bs.set i c).getD i d = c := by
  induction bs generalizing i with
  | nil => simp at h
  | cons b rest ih =>
    cases i with
    | zero => rfl
    | succ j =>
      simp only [List.set_cons_succ, List.getD_cons_succ]
      exact ih j (by simpa using h)

theorem getD_set_ne {α : Type} (bs : List α) (i j : Nat) (c d : α)
    (h : i ≠ j) : (bs.set i c).getD j d = bs.getD j d := by
  induction bs generalizing i j with
  | nil => simp
  | cons b rest ih =>
    cases i with
    | zero =>
      cases j with
      | zero => exact absurd rfl h
      | succ j' => rfl
    | succ i' =>
      cases j with
      | zero => rfl
      | succ j' =>
        simp only [List.set_cons_succ, List.getD_cons_succ]
        exact ih i' j' (fun hh => h (by rw [hh]))

theorem set_getD_self {α : Type} (bs : List α) (i : Nat) (d : α) :
    bs.set i (bs.getD i d) = bs := by
  induction bs generalizing i with
  | nil => rfl
  | cons b rest ih =>
    cases i with
    | zero => rfl
    | succ j => rw [List.getD_cons_succ, List.set_cons_succ, ih j]

theorem getD_replicate_nil {α : Type} (n j : Nat) :
    (List.replicate n ([] : List α)).getD j [] = [] := by
  induction n generalizing j with
  | zero => simp
  | succ m ih =>
    cases j with
    | zero => rfl
    | succ j' => simp [List.replicate_succ, ih j']

theorem flatten_replicate_nil {α : Type} (n : Nat) :
    (List.replicate n ([] : List α)).flatten = [] := by
  induction n with
  | zero => rfl
  | succ m ih => simp [List.replicate_succ, ih]

theorem mem_flatten_of_mem_getD {α : Type} {bs : List (List α)} {j : Nat}
    {b : α} (h : b ∈ bs.getD j []) : b ∈ bs.flatten := by
  by_cases hj : j < bs.length
  · rw [List.getD_eq_getElem _ _ hj] at h
    exact List.mem_flatten.mpr ⟨bs[j], List.getElem_mem hj, h⟩
  · rw [List.getD_eq_default _ _ (Nat.le_of_not_lt hj)] at h
    simp at h

theorem flatten_set_cons_perm {α : Type} (bs : List (List α)) (i : Nat)
    (b : α) (h : i < bs.length) :
    (bs.set i (b :: bs.getD i [])).flatten.Perm (b :: bs.flatten) := by
  induction bs generalizing i with
  | nil => simp at h
  | cons c rest ih =>
    cases i with
    | zero => simp
    | succ j =>
      simp only [List.set_cons_succ, List.getD_cons_succ, List.flatten_cons]
      exact ((ih j (by simpa using h)).append_left c).trans List.perm_middle

namespace HashTable

/-- `auBucketCounts`: the fixed ascending prime bucket-count sequence. -/
def auBucketCounts : List Nat :=
  [509, 1021, 2039, 4093, 8191, 16381, 32749, 65521]

/-- `numBucketCounts`: the number of entries of `auBucketCounts`. -/
def numBucketCounts : Nat := auBucketCounts.length

/-- `SymTable_hash`: polynomial accumulation `uHash * 65599 + byte` in
`size_t` (64-bit wraparound at every step), reduced modulo the bucket
count. -/
def SymTable_hash (pcKey : Key) (uBucketCount : Nat) : Nat :=
  (pcKey.foldl (fun uHash c => (uHash * 65599 + c) % 2 ^ 64) 0) % uBucketCount

/-- `struct SymTable` of the expanding hash implementation: binding
count, index into `auBucketCounts`, and the bucket array, each bucket a
chain of bindings from its head. -/
structure SymTable (V : Type) where
  length : Nat
  bucket_ct_i : Nat
  buckets : List (List (Key × Ptr V))
deriving DecidableEq

/-- The current bucket count `auBucketCounts[oSymTable->bucket_ct_i]`. -/
def bucketCount {V : Type} (t : SymTable V) : Nat :=
  auBucketCounts.getD t.bucket_ct_i 0

/-- The bucket selected for a key: `buckets[SymTable_hash(pcKey, n)]`. -/
def bucketFor {V : Type} (t : SymTable V) (k : Key) : List (Key × Ptr V) :=
  t.buckets.getD (SymTable_hash k (bucketCount t)) []

/-- `SymTable_new` of the hash implementation (allocations succeeding):
empty table at the first bucket count, all 509 buckets empty. -/
def SymTable_new (V : Type) : SymTable V :=
  ⟨0, 0, List.replicate 509 []⟩

/-- `SymTable_getLength` of the hash implementation. -/
def SymTable_getLength {V : Type} (t : SymTable V) : Nat := t.length

/-- `SymTable_contains` of the hash implementation: scan of the key's
bucket, `true` for 1. -/
def SymTable_contains {V : Type} (t : SymTable V) (k : Key) : Bool :=
  (chainAssoc (bucketFor t k) k).isSome

/-- `SymTable_get` of the hash implementation: scan of the key's bucket
returning the stored value reference, `NULL` (`none`) if absent. -/
def SymTable_get {V : Type} (t : SymTable V) (k : Key) : Ptr V :=
  (chainAssoc (bucketFor t k) k).getD none

/-- One relink step of the resize loop: `curr->next = new_buckets[i];
new_buckets[i] = curr` — prepend the binding to bucket `i` of the new
array. -/
def prependAt {V : Type} (bs : List (List (Key × Ptr V))) (i : Nat)
    (b : Key × Ptr V) : List (List (Key × Ptr V)) :=
  bs.set i (b :: bs.getD i [])

/-- The inner rehash loop of `SymTable_resize`: relink every binding of
one old bucket, in chain order, to the head of its new bucket
`SymTable_hash(curr->uKey, new_bucket_ct)`. -/
def relinkChain {V : Type} (n : Nat) (acc : List (List (Key × Ptr V)))
    (chain : List (Key × Ptr V)) : List (List (Key × Ptr V)) :=
  chain.foldl (fun a b => prependAt a (SymTable_hash b.1 n) b) acc

/-- The rehash loops of `SymTable_resize`: every old bucket in ascending
index order, every binding of a bucket in chain order, relinked (the
binding pair itself untouched) into the freshly `calloc`ed size-`n`
bucket array. -/
def rehashInto {V : Type} (old : List (List (Key × Ptr V))) (n : Nat) :
    List (List (Key × Ptr V)) :=
  old.foldl (relinkChain n) (List.replicate n [])

/-- `SymTable_resize`: returns 0 (`false`) leaving the table untouched
when the table is not exactly full, when the bucket-count sequence is
exhausted, or when the `calloc` of the new bucket array fails (`allocOk
= false`); otherwise installs the rehashed bucket array and advances
`bucket_ct_i` one step, returning 1 (`true`). -/
def SymTable_resize {V : Type} (allocOk : Bool) (t : SymTable V) :
    SymTable V × Bool :=
  if t.length ≠ bucketCount t then (t, false)
  else if t.bucket_ct_i = numBucketCounts - 1 then (t, false)
  else if allocOk = false then (t, false)
  else
    let n := auBucketCounts.getD (t.bucket_ct_i + 1) 0
    (⟨t.length, t.bucket_ct_i + 1, rehashInto t.buckets n⟩, true)

/-- The successful-insertion core of `SymTable_put`: prepend the new
binding to the key's bucket and increment `length`. -/
def insertStep {V : Type} (t : SymTable V) (k : Key) (v : Ptr V) :
    SymTable V :=
  ⟨t.length + 1, t.bucket_ct_i,
    prependAt t.buckets (SymTable_hash k (bucketCount t)) (k, v)⟩

/-- `SymTable_put` of the hash implementation (key/binding allocations
succeeding, with the resize-allocation oracle `allocOk`): duplicate
keys are rejected with return 0 (`false`); otherwise the binding is
inserted, the resize is attempted exactly when the new `length` equals
the current bucket count — its result ignored — and 1 (`true`) is
returned. -/
def SymTable_put {V : Type} (t : SymTable V) (k : Key) (v : Ptr V)
    (allocOk : Bool) : SymTable V × Bool :=
  if SymTable_contains t k then (t, false)
  else
    (if (insertStep t k v).length = bucketCount (insertStep t k v) then
      (SymTable_resize allocOk (insertStep t k v)).1
     else insertStep t k v, true)

/-- `SymTable_replace` of the hash implementation: the scan-and-swap on
the bucket `buckets[SymTable_hash(pcKey, bucket count)]`. -/
def SymTable_replace {V : Type} (t : SymTable V) (k : Key) (v : Ptr V) :
    SymTable V × Ptr V :=
  (⟨t.length, t.bucket_ct_i,
    t.buckets.set (SymTable_hash k (bucketCount t))
      (chainReplace
        (t.buckets.getD (SymTable_hash k (bucketCount t)) []) k v).1⟩,
   (chainReplace
     (t.buckets.getD (SymTable_hash k (bucketCount t)) []) k v).2)

/-- `SymTable_remove` of the hash implementation: the scan-and-unlink on
the bucket `buckets[SymTable_hash(pcKey, bucket count)]`. -/
def SymTable_remove {V : Type} (t : SymTable V) (k : Key) :
    SymTable V × Ptr V :=
  match chainRemove
      (t.buckets.getD (SymTable_hash k (bucketCount t)) []) k with
  | (ch, some w) =>
    (⟨t.length - 1, t.bucket_ct_i,
      t.buckets.set (SymTable_hash k (bucketCount t)) ch⟩, w)
  | (_, none) => (t, none)

/-- `SymTable_map` of the hash implementation: the outer loop over the
buckets in ascending index order, the inner loop over each bucket's
chain, with the callback's mutable `pvExtra` state threaded
explicitly. -/
def SymTable_map {V σ : Type} (t : SymTable V) (f : Key → Ptr V → σ → σ)
    (s : σ) : σ :=
  t.buckets.foldl (fun acc chain => chain.foldl (fun a b => f b.1 b.2 a) acc) s

/-- `SymTable_free` of the hash implementation on a possibly-NULL
handle: the NULL check comes before any read through the handle, so the
call is a safe no-op on NULL. -/
def SymTable_free {V : Type} (h : Option (SymTable V)) : Option Unit :=
  match h with
  | none => some ()
  | some _ => some ()

/-- Well-formedness maintained by the hash implementation: a valid
bucket-count index, a bucket array of exactly the current bucket count,
a `length` field counting all bindings, no key bound twice, and every
binding reachable only from the bucket its key hashes to. -/
def WF {V : Type} (t : SymTable V) : Prop :=
  t.bucket_ct_i < numBucketCounts ∧
  t.buckets.length = bucketCount t ∧
  t.length = t.buckets.flatten.length ∧
  ((t.buckets.flatten.map Prod.fst).Nodup) ∧
  ∀ j ∈ List.range t.buckets.length, ∀ b ∈ t.buckets.getD j [],
    SymTable_hash b.1 (bucketCount t) = j

instance {V : Type} [DecidableEq V] (t : SymTable V) : Decidable (WF t) := by
  unfold WF; infer_instance

/-! ### Facts about the bucket-count sequence and the hash -/

theorem numBucketCounts_eq : numBucketCounts = 8 := rfl

theorem auBucketCounts_getD_pos {j : Nat} (h : j < numBucketCounts) :
    0 < auBucketCounts.getD j 0 := by
  rw [numBucketCounts_eq] at h
  interval_cases j <;> decide

theorem bucketCount_pos {V : Type} {t : SymTable V}
    (h : t.bucket_ct_i < numBucketCounts) : 0 < bucketCount t :=
  auBucketCounts_getD_pos h

theorem SymTable_hash_lt (k : Key) {n : Nat} (h : 0 < n) :
    SymTable_hash k n < n :=
  Nat.mod_lt _ h

/-- The internal lookup shared by `contains` and `get`: the scan of the
key's bucket. -/
def lookupEntry {V : Type} (t : SymTable V) (k : Key) : Option (Ptr V) :=
  chainAssoc (bucketFor t k) k

theorem SymTable_contains_eq {V : Type} (t : SymTable V) (k : Key) :
    SymTable_contains t k = (lookupEntry t k).isSome := rfl

theorem SymTable_get_eq {V : Type} (t : SymTable V) (k : Key) :
    SymTable_get t k = (lookupEntry t k).getD none := rfl

/-- The bucket-placement invariant of `WF`, freed of its range bound. -/
theorem WF.placed {V : Type} {t : SymTable V} (h : WF t) (j : Nat)
    (b : Key × Ptr V) (hb : b ∈ t.buckets.getD j []) :
    SymTable_hash b.1 (bucketCount t) = j := by
  by_cases hj : j < t.buckets.length
  · exact h.2.2.2.2 j (List.mem_range.mpr hj) b hb
  · rw [List.getD_eq_default _ _ (Nat.le_of_not_lt hj)] at hb
    simp at hb

/-! ### The rehash loops -/

theorem prependAt_length {V : Type} (bs : List (List (Key × Ptr V)))
    (i : Nat) (b : Key × Ptr V) : (prependAt bs i b).length = bs.length := by
  simp [prependAt]

theorem relinkChain_length {V : Type} (n : Nat)
    (acc : List (List (Key × Ptr V))) (chain : List (Key × Ptr V)) :
    (relinkChain n acc chain).length = acc.length := by
  induction chain generalizing acc with
  | nil => rfl
  | cons b rest ih =>
    rw [relinkChain, List.foldl_cons, ← relinkChain]
    rw [ih, prependAt_length]

theorem relinkChain_flatten_perm {V : Type} {n : Nat} (hn : 0 < n)
    (chain : List (Key × Ptr V)) (acc : List (List (Key × Ptr V)))
    (hl : acc.length = n) :
    (relinkChain n acc chain).flatten.Perm (chain ++ acc.flatten) := by
  induction chain generalizing acc with
  | nil => simp [relinkChain]
  | cons b rest ih =>
    rw [relinkChain, List.foldl_cons, ← relinkChain]
    have hlt : SymTable_hash b.1 n < acc.length := by
      rw [hl]
      exact SymTable_hash_lt _ hn
    have h1 := ih (prependAt acc (SymTable_hash b.1 n) b)
      (by rw [prependAt_length, hl])
    have h2 : (prependAt acc (SymTable_hash b.1 n) b).flatten.Perm
        (b :: acc.flatten) := flatten_set_cons_perm acc _ b hlt
    exact (h1.trans (h2.append_left rest)).trans List.perm_middle

theorem rehashInto_length {V : Type} (old : List (List (Key × Ptr V)))
    (n : Nat) : (rehashInto old n).length = n := by
  suffices h : ∀ (old acc : List (List (Key × Ptr V))),
      (old.foldl (relinkChain n) acc).length = acc.length by
    rw [rehashInto, h, List.length_replicate]
  intro old acc
  induction old generalizing acc with
  | nil => rfl
  | cons chain rest ih => rw [List.foldl_cons, ih, relinkChain_length]

theorem rehashInto_flatten_perm {V : Type}
    (old : List (List (Key × Ptr V))) {n : Nat} (hn : 0 < n) :
    (rehashInto old n).flatten.Perm old.flatten := by
  suffices h : ∀ (old acc : List (List (Key × Ptr V))), acc.length = n →
      (old.foldl (relinkChain n) acc).flatten.Perm
        (old.flatten ++ acc.flatten) by
    have := h old (List.replicate n []) (List.length_replicate ..)
    simpa [flatten_replicate_nil] using this
  intro old
  induction old with
  | nil => intro acc _; simp
  | cons chain rest ih =>
    intro acc hl
    rw [List.foldl_cons]
    have h1 := ih (relinkChain n acc chain) (by rw [relinkChain_length, hl])
    have h2 := relinkChain_flatten_perm hn chain acc hl
    rw [List.flatten_cons, List.append_assoc]
    refine h1.trans ((h2.append_left rest.flatten).trans ?_)
    rw [← List.append_assoc, ← List.append_assoc]
    exact List.perm_append_comm.append_right _

theorem prependAt_placed {V : Type} {n : Nat}
    {acc : List (List (Key × Ptr V))}
    (hp : ∀ j b, b ∈ acc.getD j [] → SymTable_hash b.1 n = j)
    (b₀ : Key × Ptr V) :
    ∀ j b, b ∈ (prependAt acc (SymTable_hash b₀.1 n) b₀).getD j [] →
      SymTable_hash b.1 n = j := by
  intro j b hb
  by_cases hi : SymTable_hash b₀.1 n < acc.length
  · by_cases hij : SymTable_hash b₀.1 n = j
    · subst hij
      rw [prependAt, getD_set_self _ _ _ _ hi] at hb
      rcases List.mem_cons.mp hb with hb | hb
      · rw [hb]
      · exact hp _ b hb
    · rw [prependAt, getD_set_ne _ _ _ _ _ hij] at hb
      exact hp _ b hb
  · rw [prependAt, List.set_eq_of_length_le (Nat.le_of_not_lt hi)] at hb
    exact hp _ b hb

theorem relinkChain_placed {V : Type} {n : Nat}
    (chain : List (Key × Ptr V)) (acc : List (List (Key × Ptr V)))
    (hp : ∀ j b, b ∈ acc.getD j [] → SymTable_hash b.1 n = j) :
    ∀ j b, b ∈ (relinkChain n acc chain).getD j [] →
      SymTable_hash b.1 n = j := by
  induction chain generalizing acc with
  | nil => exact hp
  | cons b rest ih =>
    rw [relinkChain, List.foldl_cons, ← relinkChain]
    exact ih _ (prependAt_placed hp b)

theorem rehashInto_placed {V : Type} (old : List (List (Key × Ptr V)))
    (n : Nat) :
    ∀ j b, b ∈ (rehashInto old n).getD j [] →
      SymTable_hash b.1 n = j := by
  suffices h : ∀ (old acc : List (List (Key × Ptr V))),
      (∀ j b, b ∈ acc.getD j [] → SymTable_hash b.1 n = j) →
      ∀ j b, b ∈ (old.foldl (relinkChain n) acc).getD j [] →
        SymTable_hash b.1 n = j by
    refine h old (List.replicate n []) ?_
    intro j b hb
    rw [getD_replicate_nil] at hb
    simp at hb
  intro old
  induction old with
  | nil => intro acc hp; exact hp
  | cons chain rest ih =>
    intro acc hp
    rw [List.foldl_cons]
    exact ih _ (relinkChain_placed chain acc hp)

/-! ### Lookup agrees with the flattened binding list -/

theorem lookupEntry_eq_flatten {V : Type} {t : SymTable V} (h : WF t)
    (k : Key) : lookupEntry t k = chainAssoc t.buckets.flatten k := by
  cases hl : chainAssoc (bucketFor t k) k with
  | some v =>
    rw [lookupEntry, hl]
    exact (chainAssoc_of_nodup_of_mem h.2.2.2.1
      (mem_flatten_of_mem_getD (chainAssoc_mem hl))).symm
  | none =>
    rw [lookupEntry, hl, eq_comm, chainAssoc_eq_none_iff]
    intro hmem
    obtain ⟨b, hbmem, hbk⟩ := List.mem_map.mp hmem
    obtain ⟨l, hlmem, hbl⟩ := List.mem_flatten.mp hbmem
    obtain ⟨j, hj, hlj⟩ := List.mem_iff_getElem.mp hlmem
    have hgd : b ∈ t.buckets.getD j [] := by
      rw [List.getD_eq_getElem _ _ hj, hlj]
      exact hbl
    have hplaced : SymTable_hash b.1 (bucketCount t) = j := h.placed j b hgd
    have hbmem' : b ∈ bucketFor t k := by
      rw [bucketFor, ← hbk, hplaced]
      exact hgd
    rw [chainAssoc_eq_none_iff] at hl
    exact hl (List.mem_map.mpr ⟨b, hbmem', hbk⟩)

theorem contains_iff_mem {V : Type} {t : SymTable V} (h : WF t) (k : Key) :
    SymTable_contains t k = true ↔ k ∈ t.buckets.flatten.map Prod.fst := by
  rw [SymTable_contains_eq, lookupEntry_eq_flatten h, chainAssoc_isSome_iff]

theorem not_mem_of_contains_false {V : Type} {t : SymTable V} (h : WF t)
    {k : Key} (habs : SymTable_contains t k = false) :
    k ∉ t.buckets.flatten.map Prod.fst := fun hm => by
  rw [(contains_iff_mem h k).mpr hm] at habs
  exact Bool.noConfusion habs

/-! ### `SymTable_resize`: specification -/

theorem SymTable_resize_not_full {V : Type} {t : SymTable V} (ok : Bool)
    (h : t.length ≠ bucketCount t) : SymTable_resize ok t = (t, false) := by
  rw [SymTable_resize, if_pos h]

theorem SymTable_resize_at_max {V : Type} {t : SymTable V} (ok : Bool)
    (h : t.bucket_ct_i = numBucketCounts - 1) :
    SymTable_resize ok t = (t, false) := by
  rw [SymTable_resize]
  by_cases h1 : t.length ≠ bucketCount t
  · rw [if_pos h1]
  · rw [if_neg h1, if_pos h]

theorem SymTable_resize_alloc_fail {V : Type} (t : SymTable V) :
    SymTable_resize false t = (t, false) := by
  rw [SymTable_resize]
  by_cases h1 : t.length ≠ bucketCount t
  · rw [if_pos h1]
  · rw [if_neg h1]
    by_cases h2 : t.bucket_ct_i = numBucketCounts - 1
    · rw [if_pos h2]
    · rw [if_neg h2, if_pos rfl]

theorem SymTable_resize_grow {V : Type} {t : SymTable V}
    (hfull : t.length = bucketCount t)
    (hnext : t.bucket_ct_i + 1 < numBucketCounts) :
    SymTable_resize true t =
      (⟨t.length, t.bucket_ct_i + 1,
        rehashInto t.buckets (auBucketCounts.getD (t.bucket_ct_i + 1) 0)⟩,
       true) := by
  have hne : t.bucket_ct_i ≠ numBucketCounts - 1 := by
    rw [numBucketCounts_eq] at hnext ⊢
    omega
  rw [SymTable_resize, if_neg (fun hc => hc hfull), if_neg hne,
    if_neg (fun hc => Bool.noConfusion hc)]

/-- Master specification of `SymTable_resize`: under well-formedness, a
resize (whether it grows, is skipped, or fails to allocate) preserves
well-formedness, the binding count, the binding multiset, and every
lookup. -/
theorem SymTable_resize_master {V : Type} {t : SymTable V} (h : WF t)
    (ok : Bool) :
    WF (SymTable_resize ok t).1 ∧
    (SymTable_resize ok t).1.length = t.length ∧
    (SymTable_resize ok t).1.buckets.flatten.Perm t.buckets.flatten ∧
    ∀ k, lookupEntry (SymTable_resize ok t).1 k = lookupEntry t k := by
  by_cases h1 : t.length ≠ bucketCount t
  · rw [SymTable_resize_not_full ok h1]
    exact ⟨h, rfl, List.Perm.refl _, fun _ => rfl⟩
  by_cases h2 : t.bucket_ct_i = numBucketCounts - 1
  · rw [SymTable_resize_at_max ok h2]
    exact ⟨h, rfl, List.Perm.refl _, fun _ => rfl⟩
  cases ok with
  | false =>
    rw [SymTable_resize_alloc_fail]
    exact ⟨h, rfl, List.Perm.refl _, fun _ => rfl⟩
  | true =>
    have hfull : t.length = bucketCount t := not_not.mp h1
    have hnext : t.bucket_ct_i + 1 < numBucketCounts := by
      have := h.1
      rw [numBucketCounts_eq] at this ⊢
      rw [numBucketCounts_eq] at h2
      omega
    rw [SymTable_resize_grow hfull hnext]
    set n' : Nat := auBucketCounts.getD (t.bucket_ct_i + 1) 0 with hn'def
    have hn' : 0 < n' := auBucketCounts_getD_pos hnext
    set t' : SymTable V :=
      ⟨t.length, t.bucket_ct_i + 1, rehashInto t.buckets n'⟩ with ht'def
    have hperm : t'.buckets.flatten.Perm t.buckets.flatten :=
      rehashInto_flatten_perm t.buckets hn'
    have hwf : WF t' := by
      refine ⟨hnext, ?_, ?_, ?_, ?_⟩
      · exact rehashInto_length t.buckets n'
      · rw [hperm.length_eq]
        exact h.2.2.1
      · exact (hperm.map Prod.fst).nodup_iff.mpr h.2.2.2.1
      · intro j _ b hb
        exact rehashInto_placed t.buckets n' j b hb
    refine ⟨hwf, rfl, hperm, fun k => ?_⟩
    rw [lookupEntry_eq_flatten hwf, lookupEntry_eq_flatten h]
    exact chainAssoc_perm hperm hwf.2.2.2.1 k

/-! ### `insertStep` and `SymTable_put`: specification -/

theorem insertStep_spec {V : Type} {t : SymTable V} {k : Key} (v : Ptr V)
    (h : WF t) (habs : SymTable_contains t k = false) :
    WF (insertStep t k v) ∧
    (insertStep t k v).length = t.length + 1 ∧
    (insertStep t k v).bucket_ct_i = t.bucket_ct_i ∧
    lookupEntry (insertStep t k v) k = some v ∧
    ∀ k₂, k₂ ≠ k → lookupEntry (insertStep t k v) k₂ = lookupEntry t k₂ := by
  have hpos : 0 < bucketCount t := bucketCount_pos h.1
  have hi : SymTable_hash k (bucketCount t) < t.buckets.length := by
    rw [h.2.1]
    exact SymTable_hash_lt _ hpos
  have hbc : bucketCount (insertStep t k v) = bucketCount t := rfl
  have hperm : (insertStep t k v).buckets.flatten.Perm
      ((k, v) :: t.buckets.flatten) :=
    flatten_set_cons_perm t.buckets _ (k, v) hi
  have hself : bucketFor (insertStep t k v) k = (k, v) :: bucketFor t k := by
    show (prependAt t.buckets _ _).getD _ [] = _
    rw [hbc, prependAt, getD_set_self _ _ _ _ hi]
    rfl
  refine ⟨⟨h.1, ?_, ?_, ?_, ?_⟩, rfl, rfl, ?_, ?_⟩
  · rw [show (insertStep t k v).buckets = prependAt t.buckets
      (SymTable_hash k (bucketCount t)) (k, v) from rfl, prependAt_length]
    exact h.2.1
  · rw [hperm.length_eq]
    show t.length + 1 = t.buckets.flatten.length + 1
    rw [h.2.2.1]
  · refine (hperm.map Prod.fst).nodup_iff.mpr ?_
    rw [List.map_cons, List.nodup_cons]
    exact ⟨not_mem_of_contains_false h habs, h.2.2.2.1⟩
  · intro j _ b hb
    rw [hbc]
    exact prependAt_placed h.placed (k, v) j b hb
  · rw [lookupEntry, hself, chainAssoc]
    simp
  · intro k₂ hk₂
    rw [lookupEntry, lookupEntry]
    by_cases hij : SymTable_hash k₂ (bucketCount t) =
        SymTable_hash k (bucketCount t)
    · have : bucketFor (insertStep t k v) k₂ = (k, v) :: bucketFor t k₂ := by
        show (prependAt t.buckets _ _).getD _ [] = _
        rw [hbc, hij, prependAt, getD_set_self _ _ _ _ hi]
        rw [bucketFor, hij]
      rw [this, chainAssoc, if_neg (fun hc => hk₂ hc.symm)]
    · have : bucketFor (insertStep t k v) k₂ = bucketFor t k₂ := by
        show (prependAt t.buckets _ _).getD _ [] = _
        rw [hbc, prependAt, getD_set_ne _ _ _ _ _ (fun hc => hij hc.symm)]
        rfl
      rw [this]

theorem SymTable_put_dup {V : Type} {t : SymTable V} {k : Key} (v : Ptr V)
    (ok : Bool) (h : SymTable_contains t k = true) :
    SymTable_put t k v ok = (t, false) := by
  rw [SymTable_put, if_pos h]

theorem SymTable_put_fresh {V : Type} {t : SymTable V} {k : Key}
    (v : Ptr V) (ok : Bool) (h : WF t)
    (habs : SymTable_contains t k = false) :
    (SymTable_put t k v ok).2 = true ∧
    WF (SymTable_put t k v ok).1 ∧
    (SymTable_put t k v ok).1.length = t.length + 1 ∧
    lookupEntry (SymTable_put t k v ok).1 k = some v ∧
    ∀ k₂, k₂ ≠ k →
      lookupEntry (SymTable_put t k v ok).1 k₂ = lookupEntry t k₂ := by
  obtain ⟨hwf1, hlen1, _, hself1, hother1⟩ := insertStep_spec v h habs
  have hcf : ¬SymTable_contains t k = true := by simp [habs]
  rw [SymTable_put, if_neg hcf]
  by_cases hfull : (insertStep t k v).length = bucketCount (insertStep t k v)
  · obtain ⟨hwf2, hlen2, _, hlook2⟩ := SymTable_resize_master hwf1 ok
    rw [if_pos hfull]
    refine ⟨rfl, hwf2, ?_, ?_, ?_⟩
    · rw [hlen2, hlen1]
    · rw [hlook2 k, hself1]
    · intro k₂ hk₂
      rw [hlook2 k₂, hother1 k₂ hk₂]
  · rw [if_neg hfull]
    exact ⟨rfl, hwf1, hlen1, hself1, hother1⟩

theorem SymTable_put_contains {V : Type} {t : SymTable V} {k : Key}
    (v : Ptr V) (ok : Bool) (h : WF t)
    (habs : SymTable_contains t k = false) (k₂ : Key) :
    SymTable_contains (SymTable_put t k v ok).1 k₂ =
      (SymTable_contains t k₂ || decide (k₂ = k)) := by
  obtain ⟨_, _, _, hself, hother⟩ := SymTable_put_fresh v ok h habs
  by_cases hk₂ : k₂ = k
  · subst hk₂
    rw [SymTable_contains_eq, hself, habs]
    simp
  · rw [SymTable_contains_eq, hother k₂ hk₂, ← SymTable_contains_eq,
      decide_eq_false hk₂, Bool.or_false]

theorem SymTable_put_no_resize {V : Type} {t : SymTable V} {k : Key}
    (v : Ptr V) (ok : Bool) (habs : SymTable_contains t k = false)
    (hlen : t.length + 1 ≠ bucketCount t) :
    SymTable_put t k v ok = (insertStep t k v, true) := by
  have hcf : ¬SymTable_contains t k = true := by simp [habs]
  have hlen' :
      ¬(insertStep t k v).length = bucketCount (insertStep t k v) := hlen
  rw [SymTable_put, if_neg hcf, if_neg hlen']

theorem SymTable_put_triggers_resize {V : Type} {t : SymTable V} {k : Key}
    (v : Ptr V) (ok : Bool) (habs : SymTable_contains t k = false)
    (hlen : t.length + 1 = bucketCount t) :
    SymTable_put t k v ok =
      ((SymTable_resize ok (insertStep t k v)).1, true) := by
  have hcf : ¬SymTable_contains t k = true := by simp [habs]
  have hlen' :
      (insertStep t k v).length = bucketCount (insertStep t k v) := hlen
  rw [SymTable_put, if_neg hcf, if_pos hlen']

/-! ### The fresh table -/

theorem WF_new (V : Type) : WF (SymTable_new V) := by
  refine ⟨?_, ?_, ?_, ?_, ?_⟩
  · show (0 : Nat) < numBucketCounts
    decide
  · exact rfl
  · rw [show (SymTable_new V).buckets = List.replicate 509 [] from rfl,
      flatten_replicate_nil]
    rfl
  · rw [show (SymTable_new V).buckets = List.replicate 509 [] from rfl,
      flatten_replicate_nil]
    exact List.nodup_nil
  · intro j _ b hb
    rw [show (SymTable_new V).buckets = List.replicate 509 [] from rfl,
      getD_replicate_nil] at hb
    simp at hb

theorem contains_new_false {V : Type} (k : Key) :
    SymTable_contains (SymTable_new V) k = false := by
  rw [SymTable_contains, bucketFor,
    show (SymTable_new V).buckets = List.replicate 509 [] from rfl,
    getD_replicate_nil]
  rfl

/-! ### Sequences of inserts -/

/-- A sequence of `SymTable_put` calls (resize allocations succeeding). -/
def putAll {V : Type} (t : SymTable V) :
    List (Key × Ptr V) → SymTable V
  | [] => t
  | kv :: rest => putAll (SymTable_put t kv.1 kv.2 true).1 rest

/-- Specification of a distinct-key insertion sequence: under
well-formedness, inserting bindings whose keys are distinct and all
absent yields a well-formed table in which every inserted binding is
found by lookup with its own value, every other key's lookup is
untouched, and the binding count grows by the number of inserts. -/
theorem putAll_spec {V : Type} :
    ∀ (kvs : List (Key × Ptr V)) (t : SymTable V), WF t →
    (kvs.map Prod.fst).Nodup →
    (∀ kv ∈ kvs, SymTable_contains t kv.1 = false) →
    WF (putAll t kvs) ∧
    (putAll t kvs).length = t.length + kvs.length ∧
    (∀ kv ∈ kvs, lookupEntry (putAll t kvs) kv.1 = some kv.2) ∧
    (∀ k, k ∉ kvs.map Prod.fst →
      lookupEntry (putAll t kvs) k = lookupEntry t k) := by
  intro kvs
  induction kvs with
  | nil =>
    intro t h _ _
    exact ⟨h, rfl, by simp, fun k _ => rfl⟩
  | cons kv rest ih =>
    intro t h hnd habs
    obtain ⟨k0, v0⟩ := kv
    rw [List.map_cons, List.nodup_cons] at hnd
    have habs0 : SymTable_contains t k0 = false := habs _ (List.mem_cons_self ..)
    obtain ⟨_, hwf1, hlen1, hself1, hother1⟩ :=
      SymTable_put_fresh v0 true h habs0
    have habs1 : ∀ kv ∈ rest,
        SymTable_contains (SymTable_put t k0 v0 true).1 kv.1 = false := by
      intro kv hkv
      have hne : kv.1 ≠ k0 := by
        intro hc
        exact hnd.1 (hc ▸ List.mem_map.mpr ⟨kv, hkv, rfl⟩)
      rw [SymTable_contains_eq, hother1 kv.1 hne, ← SymTable_contains_eq]
      exact habs _ (List.mem_cons_of_mem _ hkv)
    obtain ⟨hwf2, hlen2, hget2, hframe2⟩ :=
      ih (SymTable_put t k0 v0 true).1 hwf1 hnd.2 habs1
    have hstep : putAll t ((k0, v0) :: rest) =
        putAll (SymTable_put t k0 v0 true).1 rest := rfl
    refine ⟨hstep ▸ hwf2, ?_, ?_, ?_⟩
    · rw [hstep, hlen2, hlen1, List.length_cons]
      omega
    · intro kv hkv
      rcases List.mem_cons.mp hkv with hkv | hkv
      · subst hkv
        rw [hstep, hframe2 k0 hnd.1, hself1]
      · rw [hstep]
        exact hget2 kv hkv
    · intro k hk
      rw [List.map_cons, List.mem_cons] at hk
      push_neg at hk
      rw [hstep, hframe2 k hk.2, hother1 k hk.1]

end HashTable

/-- Counting a fold: folding the successor callback over a list adds the
list's length. -/
theorem foldl_add_one_eq_length {α : Type} (l : List α) (c : Nat) :
    l.foldl (fun n _ => n + 1) c = c + l.length := by
  induction l generalizing c with
  | nil => rfl
  | cons b rest ih => rw [List.foldl_cons, ih, List.length_cons]; omega

namespace ListTable

theorem WF_new_list (V : Type) : WF (SymTable_new V) := ⟨rfl, List.nodup_nil⟩

theorem contains_eq_isSome {V : Type} (t : SymTable V) (k : Key) :
    SymTable_contains t k = (chainAssoc t.head k).isSome := rfl

theorem get_eq_getD {V : Type} (t : SymTable V) (k : Key) :
    SymTable_get t k = (chainAssoc t.head k).getD none := rfl

theorem put_dup_noop {V : Type} {t : SymTable V} {k : Key} (v : Ptr V)
    (h : SymTable_contains t k = true) : SymTable_put t k v = (t, false) := by
  rw [SymTable_put, if_pos h]

theorem put_fresh_prepend {V : Type} {t : SymTable V} {k : Key}
    (v : Ptr V) (habs : SymTable_contains t k = false) :
    SymTable_put t k v = (⟨(k, v) :: t.head, t.length + 1⟩, true) := by
  have hcf : ¬SymTable_contains t k = true := by simp [habs]
  rw [SymTable_put, if_neg hcf]

theorem WF_put_list {V : Type} {t : SymTable V} (k : Key) (v : Ptr V)
    (h : WF t) : WF (SymTable_put t k v).1 := by
  cases hc : SymTable_contains t k with
  | true => rw [put_dup_noop v hc]; exact h
  | false =>
    rw [put_fresh_prepend v hc]
    refine ⟨by rw [h.1]; rfl, ?_⟩
    rw [List.map_cons, List.nodup_cons]
    refine ⟨?_, h.2⟩
    rw [contains_eq_isSome] at hc
    intro hm
    have hnone : chainAssoc t.head k = none := by
      rcases hopt : chainAssoc t.head k with _ | v'
      · rfl
      · rw [hopt] at hc
        exact Bool.noConfusion hc
    rw [chainAssoc_eq_none_iff] at hnone
    exact hnone hm

/-- `SymTable_replace` on a bound key: swaps in the new value reference,
returns the old one, and touches nothing else. -/
theorem replace_found_spec {V : Type} {t : SymTable V} {k : Key}
    {w : Ptr V} (v : Ptr V) (h : chainAssoc t.head k = some w) :
    (SymTable_replace t k v).2 = w ∧
    (SymTable_replace t k v).1.length = t.length ∧
    SymTable_get (SymTable_replace t k v).1 k = v ∧
    (∀ k₂, k₂ ≠ k →
      SymTable_get (SymTable_replace t k v).1 k₂ = SymTable_get t k₂) ∧
    (∀ k₂, SymTable_contains (SymTable_replace t k v).1 k₂ =
      SymTable_contains t k₂) := by
  refine ⟨?_, rfl, ?_, ?_, ?_⟩
  · show (chainReplace t.head k v).2 = w
    rw [chainReplace_snd, h]
    rfl
  · rw [get_eq_getD]
    show (chainAssoc (chainReplace t.head k v).1 k).getD none = v
    rw [chainAssoc_chainReplace_self, h]
    rfl
  · intro k₂ hk₂
    rw [get_eq_getD, get_eq_getD]
    show (chainAssoc (chainReplace t.head k v).1 k₂).getD none = _
    rw [chainAssoc_chainReplace_ne _ _ hk₂]
  · intro k₂
    rw [contains_eq_isSome, contains_eq_isSome]
    show (chainAssoc (chainReplace t.head k v).1 k₂).isSome = _
    by_cases hk₂ : k₂ = k
    · subst hk₂
      rw [chainAssoc_chainReplace_self, h]
      rfl
    · rw [chainAssoc_chainReplace_ne _ _ hk₂]

/-- `SymTable_replace` on an absent key: returns `NULL` and changes
nothing. -/
theorem replace_absent_noop {V : Type} {t : SymTable V} {k : Key}
    (v : Ptr V) (h : chainAssoc t.head k = none) :
    SymTable_replace t k v = (t, none) := by
  rw [SymTable_replace]
  rw [show (chainReplace t.head k v).1 = t.head from
    chainReplace_fst_of_absent v h]
  rw [show (chainReplace t.head k v).2 = none by rw [chainReplace_snd, h]; rfl]

/-- `SymTable_remove` on an absent key: returns `NULL` and changes
nothing, including `length`. -/
theorem remove_absent_noop {V : Type} {t : SymTable V} {k : Key}
    (h : chainAssoc t.head k = none) : SymTable_remove t k = (t, none) := by
  have h2 : chainRemove t.head k = (t.head, none) := by
    have ha := chainRemove_fst_of_absent h
    have hb := chainRemove_snd t.head k
    rw [h] at hb
    exact Prod.ext ha hb
  unfold SymTable_remove
  rw [h2]

/-- `SymTable_remove` on a bound key: unlinks exactly that binding and
decrements `length`. -/
theorem remove_found_eq {V : Type} {t : SymTable V} {k : Key}
    {w : Ptr V} (h : chainAssoc t.head k = some w) :
    SymTable_remove t k = (⟨(chainRemove t.head k).1, t.length - 1⟩, w) := by
  have h2 : chainRemove t.head k = ((chainRemove t.head k).1, some w) := by
    have hb := chainRemove_snd t.head k
    rw [h] at hb
    exact Prod.ext rfl hb
  unfold SymTable_remove
  rw [h2]

/-- Observable behavior of `SymTable_remove` on a bound key (in a table
with distinct keys): the removed value is returned, `length` drops by
one, the key is gone, and every other binding is untouched. -/
theorem remove_found_behavior {V : Type} {t : SymTable V} {k : Key}
    {w : Ptr V} (hn : (t.head.map Prod.fst).Nodup)
    (h : chainAssoc t.head k = some w) :
    (SymTable_remove t k).2 = w ∧
    (SymTable_remove t k).1.length = t.length - 1 ∧
    SymTable_contains (SymTable_remove t k).1 k = false ∧
    (∀ k₂, k₂ ≠ k →
      SymTable_get (SymTable_remove t k).1 k₂ = SymTable_get t k₂ ∧
      SymTable_contains (SymTable_remove t k).1 k₂ =
        SymTable_contains t k₂) := by
  rw [remove_found_eq h]
  refine ⟨rfl, rfl, ?_, ?_⟩
  · rw [contains_eq_isSome]
    show (chainAssoc (chainRemove t.head k).1 k).isSome = false
    rw [chainAssoc_chainRemove_self hn]
    rfl
  · intro k₂ hk₂
    constructor
    · rw [get_eq_getD, get_eq_getD]
      show (chainAssoc (chainRemove t.head k).1 k₂).getD none = _
      rw [chainAssoc_chainRemove_ne _ hk₂]
    · rw [contains_eq_isSome, contains_eq_isSome]
      show (chainAssoc (chainRemove t.head k).1 k₂).isSome = _
      rw [chainAssoc_chainRemove_ne _ hk₂]

theorem WF_remove {V : Type} {t : SymTable V} (k : Key) (h : WF t) :
    WF (SymTable_remove t k).1 := by
  cases hl : chainAssoc t.head k with
  | none => rw [remove_absent_noop hl]; exact h
  | some w =>
    rw [remove_found_eq hl]
    constructor
    · show t.length - 1 = (chainRemove t.head k).1.length
      have := chainRemove_length hl
      have := h.1
      omega
    · show ((chainRemove t.head k).1.map Prod.fst).Nodup
      exact h.2.sublist ((chainRemove_sublist t.head k).map Prod.fst)

end ListTable

namespace HashTable

/-- Each bucket of a well-formed table has distinct keys. -/
theorem WF.bucket_nodup {V : Type} {t : SymTable V} (h : WF t) (j : Nat) :
    ((t.buckets.getD j []).map Prod.fst).Nodup := by
  by_cases hj : j < t.buckets.length
  · refine h.2.2.2.1.sublist (List.Sublist.map _ ?_)
    rw [List.getD_eq_getElem _ _ hj]
    exact List.sublist_flatten_of_mem (List.getElem_mem hj)
  · rw [List.getD_eq_default _ _ (Nat.le_of_not_lt hj)]
    exact List.nodup_nil

/-- A nonempty lookup pins the key's bucket index below the array
length. -/
theorem hash_lt_of_found {V : Type} {t : SymTable V} {k : Key}
    {w : Ptr V} (h : chainAssoc (bucketFor t k) k = some w) :
    SymTable_hash k (bucketCount t) < t.buckets.length := by
  by_contra hge
  rw [bucketFor, List.getD_eq_default _ _ (Nat.le_of_not_lt hge)] at h
  simp [chainAssoc] at h

/-- `SymTable_replace` (hash) on a bound key: swaps in the new value
reference, returns the old one, and touches nothing else. -/
theorem SymTable_replace_found {V : Type} {t : SymTable V} {k : Key}
    {w : Ptr V} (v : Ptr V) (h : chainAssoc (bucketFor t k) k = some w) :
    (SymTable_replace t k v).2 = w ∧
    (SymTable_replace t k v).1.length = t.length ∧
    SymTable_get (SymTable_replace t k v).1 k = v ∧
    (∀ k₂, k₂ ≠ k →
      SymTable_get (SymTable_replace t k v).1 k₂ = SymTable_get t k₂) ∧
    (∀ k₂, SymTable_contains (SymTable_replace t k v).1 k₂ =
      SymTable_contains t k₂) := by
  have hi := hash_lt_of_found h
  have hbc : bucketCount (SymTable_replace t k v).1 = bucketCount t := rfl
  have hself : bucketFor (SymTable_replace t k v).1 k =
      (chainReplace (bucketFor t k) k v).1 := by
    show (t.buckets.set _ _).getD _ [] = _
    rw [hbc, getD_set_self _ _ _ _ hi]
    rfl
  have hother : ∀ k₂, SymTable_hash k₂ (bucketCount t) ≠
      SymTable_hash k (bucketCount t) →
      bucketFor (SymTable_replace t k v).1 k₂ = bucketFor t k₂ := by
    intro k₂ hj
    show (t.buckets.set _ _).getD _ [] = _
    rw [hbc, getD_set_ne _ _ _ _ _ (fun hc => hj hc.symm)]
    rfl
  have hsame : ∀ k₂, SymTable_hash k₂ (bucketCount t) =
      SymTable_hash k (bucketCount t) →
      bucketFor (SymTable_replace t k v).1 k₂ =
        (chainReplace (bucketFor t k) k v).1 := by
    intro k₂ hj
    show (t.buckets.set _ _).getD _ [] = _
    rw [hbc, hj, getD_set_self _ _ _ _ hi]
    rfl
  have hgets : ∀ k₂, k₂ ≠ k →
      chainAssoc (bucketFor (SymTable_replace t k v).1 k₂) k₂ =
        chainAssoc (bucketFor t k₂) k₂ := by
    intro k₂ hk₂
    by_cases hj : SymTable_hash k₂ (bucketCount t) =
        SymTable_hash k (bucketCount t)
    · rw [hsame k₂ hj, chainAssoc_chainReplace_ne _ _ hk₂, bucketFor, ← hj]
      rfl
    · rw [hother k₂ hj]
  refine ⟨?_, rfl, ?_, ?_, ?_⟩
  · show (chainReplace (bucketFor t k) k v).2 = w
    rw [chainReplace_snd, h]
    rfl
  · rw [SymTable_get_eq, lookupEntry, hself,
      chainAssoc_chainReplace_self, h]
    rfl
  · intro k₂ hk₂
    rw [SymTable_get_eq, SymTable_get_eq, lookupEntry, lookupEntry,
      hgets k₂ hk₂]
  · intro k₂
    by_cases hk₂ : k₂ = k
    · subst hk₂
      rw [SymTable_contains_eq, SymTable_contains_eq, lookupEntry,
        lookupEntry, hself, chainAssoc_chainReplace_self, h]
      rfl
    · rw [SymTable_contains_eq, SymTable_contains_eq, lookupEntry,
        lookupEntry, hgets k₂ hk₂]

/-- `SymTable_replace` (hash) on an absent key: returns `NULL` and
changes nothing. -/
theorem SymTable_replace_absent {V : Type} {t : SymTable V} {k : Key}
    (v : Ptr V) (h : chainAssoc (bucketFor t k) k = none) :
    SymTable_replace t k v = (t, none) := by
  rw [SymTable_replace]
  rw [show (chainReplace (t.buckets.getD
      (SymTable_hash k (bucketCount t)) []) k v).1 =
      t.buckets.getD (SymTable_hash k (bucketCount t)) [] from
    chainReplace_fst_of_absent v h]
  rw [set_getD_self]
  rw [show (chainReplace (t.buckets.getD
      (SymTable_hash k (bucketCount t)) []) k v).2 = none by
    rw [chainReplace_snd]
    rw [show chainAssoc (t.buckets.getD
      (SymTable_hash k (bucketCount t)) []) k = none from h]
    rfl]

/-- `SymTable_remove` (hash) on an absent key: returns `NULL` and
changes nothing, including `length`. -/
theorem SymTable_remove_absent {V : Type} {t : SymTable V} {k : Key}
    (h : chainAssoc (bucketFor t k) k = none) :
    SymTable_remove t k = (t, none) := by
  have h2 : chainRemove (t.buckets.getD
      (SymTable_hash k (bucketCount t)) []) k =
      (t.buckets.getD (SymTable_hash k (bucketCount t)) [], none) := by
    refine Prod.ext (chainRemove_fst_of_absent h) ?_
    rw [chainRemove_snd]
    exact h
  unfold SymTable_remove
  rw [h2]

/-- `SymTable_remove` (hash) on a bound key: unlinks exactly that
binding from its bucket and decrements `length`. -/
theorem SymTable_remove_found {V : Type} {t : SymTable V} {k : Key}
    {w : Ptr V} (h : chainAssoc (bucketFor t k) k = some w) :
    SymTable_remove t k =
      (⟨t.length - 1, t.bucket_ct_i,
        t.buckets.set (SymTable_hash k (bucketCount t))
          (chainRemove (bucketFor t k) k).1⟩, w) := by
  have h2 : chainRemove (t.buckets.getD
      (SymTable_hash k (bucketCount t)) []) k =
      ((chainRemove (bucketFor t k) k).1, some w) := by
    refine Prod.ext rfl ?_
    rw [chainRemove_snd]
    exact h
  unfold SymTable_remove
  rw [h2]

/-- Observable behavior of `SymTable_remove` (hash) on a bound key of a
well-formed table. -/
theorem SymTable_remove_found_spec {V : Type} {t : SymTable V} {k : Key}
    {w : Ptr V} (hwf : WF t) (h : chainAssoc (bucketFor t k) k = some w) :
    (SymTable_remove t k).2 = w ∧
    (SymTable_remove t k).1.length = t.length - 1 ∧
    SymTable_contains (SymTable_remove t k).1 k = false ∧
    (∀ k₂, k₂ ≠ k →
      SymTable_get (SymTable_remove t k).1 k₂ = SymTable_get t k₂ ∧
      SymTable_contains (SymTable_remove t k).1 k₂ =
        SymTable_contains t k₂) := by
  have hi := hash_lt_of_found h
  rw [SymTable_remove_found h]
  set t' : SymTable V :=
    ⟨t.length - 1, t.bucket_ct_i,
      t.buckets.set (SymTable_hash k (bucketCount t))
        (chainRemove (bucketFor t k) k).1⟩ with ht'
  have hbc : bucketCount t' = bucketCount t := rfl
  have hself : bucketFor t' k = (chainRemove (bucketFor t k) k).1 := by
    show (t.buckets.set _ _).getD _ [] = _
    rw [hbc, getD_set_self _ _ _ _ hi]
  have hgets : ∀ k₂, k₂ ≠ k →
      chainAssoc (bucketFor t' k₂) k₂ = chainAssoc (bucketFor t k₂) k₂ := by
    intro k₂ hk₂
    by_cases hj : SymTable_hash k₂ (bucketCount t) =
        SymTable_hash k (bucketCount t)
    · have : bucketFor t' k₂ = (chainRemove (bucketFor t k) k).1 := by
        show (t.buckets.set _ _).getD _ [] = _
        rw [hbc, hj, getD_set_self _ _ _ _ hi]
      rw [this, chainAssoc_chainRemove_ne _ hk₂, bucketFor, ← hj]
      rfl
    · have : bucketFor t' k₂ = bucketFor t k₂ := by
        show (t.buckets.set _ _).getD _ [] = _
        rw [hbc, getD_set_ne _ _ _ _ _ (fun hc => hj hc.symm)]
        rfl
      rw [this]
  have hnb : ((bucketFor t k).map Prod.fst).Nodup := hwf.bucket_nodup _
  refine ⟨rfl, rfl, ?_, ?_⟩
  · rw [SymTable_contains_eq, lookupEntry, hself,
      chainAssoc_chainRemove_self hnb]
    rfl
  · intro k₂ hk₂
    exact ⟨by rw [SymTable_get_eq, SymTable_get_eq, lookupEntry,
        lookupEntry, hgets k₂ hk₂],
      by rw [SymTable_contains_eq, SymTable_contains_eq, lookupEntry,
        lookupEntry, hgets k₂ hk₂]⟩

/-- The nested `map` loops visit exactly the flattened binding list:
all buckets in ascending index order, each bucket in chain order. -/
theorem SymTable_map_eq_flatten_foldl {V σ : Type} (t : SymTable V)
    (f : Key → Ptr V → σ → σ) (s : σ) :
    SymTable_map t f s =
      t.buckets.flatten.foldl (fun a b => f b.1 b.2 a) s := by
  rw [SymTable_map]
  induction t.buckets generalizing s with
  | nil => rfl
  | cons chain rest ih =>
    rw [List.foldl_cons, List.flatten_cons, List.foldl_append, ih]

end HashTable

/-! ### The growth-scenario keys `"k0" .. "k508"` -/

/-- ASCII decimal digits of `n`, most significant first, accumulated
onto `acc` (fuel-bounded; fuel 4 covers every `n < 10000`). -/
def decCharsAux : Nat → Nat → List Nat → List Nat
  | 0, _, acc => acc
  | fuel + 1, n, acc =>
    if n < 10 then (48 + n) :: acc
    else decCharsAux fuel (n / 10) ((48 + n % 10) :: acc)

/-- The scenario key string `"kN"`: byte 107 (`'k'`) followed by the
ASCII decimal digits of `N`. -/
def kKey (n : Nat) : Key := 107 :: decCharsAux 4 n []

/-- Decimal re-reading of a digit string, used only to prove the keys
distinct. -/
def valAux (l : List Nat) (a : Nat) : Nat :=
  l.foldl (fun acc c => acc * 10 + (c - 48)) a

theorem decCharsAux_acc (fuel : Nat) :
    ∀ (n : Nat) (acc : List Nat),
    decCharsAux fuel n acc = decCharsAux fuel n [] ++ acc := by
  induction fuel with
  | zero => intro n acc; rfl
  | succ f ih =>
    intro n acc
    by_cases h : n < 10
    · rw [decCharsAux, if_pos h, decCharsAux, if_pos h]
      rfl
    · rw [decCharsAux, if_neg h, decCharsAux, if_neg h, ih (n / 10),
        ih (n / 10) [48 + n % 10], List.append_assoc]
      rfl

theorem valAux_decCharsAux (fuel : Nat) :
    ∀ n : Nat, n < 10 ^ fuel → ∀ a : Nat,
    valAux (decCharsAux fuel n []) a =
      a * 10 ^ (decCharsAux fuel n []).length + n := by
  induction fuel with
  | zero =>
    intro n hn a
    interval_cases n
    simp [valAux, decCharsAux]
  | succ f ih =>
    intro n hn a
    by_cases h : n < 10
    · rw [decCharsAux, if_pos h]
      show a * 10 + (48 + n - 48) = a * 10 ^ 1 + n
      omega
    · rw [decCharsAux, if_neg h, decCharsAux_acc f (n / 10)]
      have hdiv : n / 10 < 10 ^ f := by
        rw [pow_succ] at hn
        omega
      have hih := ih (n / 10) hdiv a
      rw [valAux] at hih
      rw [valAux, List.foldl_append, hih]
      show (a * 10 ^ (decCharsAux f (n / 10) []).length + n / 10) * 10 +
          (48 + n % 10 - 48) =
        a * 10 ^ (decCharsAux f (n / 10) [] ++ [48 + n % 10]).length + n
      rw [List.length_append]
      rw [show ([48 + n % 10] : List Nat).length = 1 from rfl]
      rw [pow_succ, ← mul_assoc]
      have hmod := Nat.div_add_mod n 10
      set M : Nat := a * 10 ^ (decCharsAux f (n / 10) []).length
      omega

theorem kKey_inj {m n : Nat} (hm : m < 10000) (hn : n < 10000)
    (h : kKey m = kKey n) : m = n := by
  have hd : decCharsAux 4 m [] = decCharsAux 4 n [] := (List.cons.inj h).2
  have hvm := valAux_decCharsAux 4 m (by omega) 0
  have hvn := valAux_decCharsAux 4 n (by omega) 0
  rw [hd] at hvm
  rw [hvn] at hvm
  omega

/-- The scenario insert sequence: keys `"k0" .. "k508"` with values
`0 .. 508`. -/
def scenarioList : List (Key × Ptr Nat) :=
  (List.range 509).map (fun i => (kKey i, some i))

/-- The hash table after the first `n` scenario inserts (resize
allocations succeeding). -/
def scenarioTable (n : Nat) : HashTable.SymTable Nat :=
  HashTable.putAll (HashTable.SymTable_new Nat) (scenarioList.take n)

theorem scenarioList_map_fst :
    scenarioList.map Prod.fst = (List.range 509).map kKey := by
  rw [scenarioList, List.map_map]
  rfl

theorem scenarioKeys_nodup : (scenarioList.map Prod.fst).Nodup := by
  rw [scenarioList_map_fst]
  refine (List.nodup_range ..).map_on ?_
  intro m hm n hn hmn
  exact kKey_inj (by have := List.mem_range.mp hm; omega)
    (by have := List.mem_range.mp hn; omega) hmn

theorem scenarioList_getElem? {i : Nat} (hi : i < 509) :
    scenarioList[i]? = some (kKey i, some i) := by
  rw [scenarioList, List.getElem?_map, List.getElem?_range hi]
  rfl

theorem scenarioList_length : scenarioList.length = 509 := by
  rw [scenarioList, List.length_map, List.length_range]

theorem HashTable.putAll_append {V : Type} (t : HashTable.SymTable V)
    (l1 l2 : List (Key × Ptr V)) :
    HashTable.putAll t (l1 ++ l2) =
      HashTable.putAll (HashTable.putAll t l1) l2 := by
  induction l1 generalizing t with
  | nil => rfl
  | cons kv rest ih =>
    rw [List.cons_append, HashTable.putAll, HashTable.putAll, ih]

theorem HashTable.lookupEntry_new {V : Type} (k : Key) :
    HashTable.lookupEntry (HashTable.SymTable_new V) k = none := by
  rw [HashTable.lookupEntry, HashTable.bucketFor,
    show (HashTable.SymTable_new V).buckets = List.replicate 509 [] from rfl,
    getD_replicate_nil]
  rfl

theorem scenarioTable_take_succ {n : Nat} (hn : n < 509) :
    scenarioTable (n + 1) =
      (HashTable.SymTable_put (scenarioTable n) (kKey n) (some n) true).1 := by
  rw [scenarioTable, scenarioTable, List.take_succ,
    scenarioList_getElem? hn, HashTable.putAll_append]
  rfl

/-- The `putAll` specification instantiated on a scenario prefix. -/
theorem scenarioTable_spec (n : Nat) :
    HashTable.WF (scenarioTable n) ∧
    (scenarioTable n).length = (scenarioList.take n).length ∧
    (∀ kv ∈ scenarioList.take n,
      HashTable.lookupEntry (scenarioTable n) kv.1 = some kv.2) ∧
    (∀ k, k ∉ (scenarioList.take n).map Prod.fst →
      HashTable.lookupEntry (scenarioTable n) k = none) := by
  have hnodup : ((scenarioList.take n).map Prod.fst).Nodup :=
    scenarioKeys_nodup.sublist ((scenarioList.take_sublist n).map Prod.fst)
  have habs : ∀ kv ∈ scenarioList.take n,
      HashTable.SymTable_contains (HashTable.SymTable_new Nat) kv.1 =
        false := fun kv _ => HashTable.contains_new_false kv.1
  obtain ⟨h1, h2, h3, h4⟩ := HashTable.putAll_spec (scenarioList.take n)
    (HashTable.SymTable_new Nat) (HashTable.WF_new Nat) hnodup habs
  unfold scenarioTable
  refine ⟨h1, by rw [h2]; exact Nat.zero_add _, h3, ?_⟩
  intro k hk
  rw [h4 k hk, HashTable.lookupEntry_new]

theorem scenario_key_not_in_take {m n : Nat} (hnm : n ≤ m)
    (hm : m < 10000) : kKey m ∉ (scenarioList.take n).map Prod.fst := by
  rw [List.map_take, scenarioList_map_fst, ← List.map_take,
    List.take_range]
  intro hmem
  obtain ⟨m', hm', hkm⟩ := List.mem_map.mp hmem
  have hlt : m' < min n 509 := List.mem_range.mp hm'
  have : m' = m := kKey_inj (by omega) (by omega) hkm
  omega

theorem scenario_contains_false {n : Nat} (hn : n ≤ 509) :
    HashTable.SymTable_contains (scenarioTable n) (kKey n) = false := by
  rw [HashTable.SymTable_contains_eq,
    (scenarioTable_spec n).2.2.2 (kKey n)
      (scenario_key_not_in_take (Nat.le_refl n) (by omega))]
  rfl

theorem scenarioTable_length {n : Nat} (hn : n ≤ 509) :
    (scenarioTable n).length = n := by
  rw [(scenarioTable_spec n).2.1, List.length_take, scenarioList_length]
  omega

theorem scenarioTable_idx : ∀ n ≤ 508, (scenarioTable n).bucket_ct_i = 0 := by
  intro n
  induction n with
  | zero => intro _; rfl
  | succ m ih =>
    intro hm
    rw [scenarioTable_take_succ (by omega)]
    have hidx := ih (by omega)
    have hbc : HashTable.bucketCount (scenarioTable m) = 509 := by
      rw [HashTable.bucketCount, hidx]
      rfl
    have hnofull : (scenarioTable m).length + 1 ≠
        HashTable.bucketCount (scenarioTable m) := by
      rw [hbc, scenarioTable_length (by omega : m ≤ 509)]
      omega
    rw [HashTable.SymTable_put_no_resize (some m) true
      (scenario_contains_false (by omega)) hnofull]
    exact hidx

/-- A put into a table that is one short of its first capacity (bucket
index 0, 508 bindings, key absent) reports success and advances the
capacity to 1021. -/
theorem put_at_first_boundary {V : Type} {t : HashTable.SymTable V}
    (k : Key) (v : Ptr V) (hidx : t.bucket_ct_i = 0) (hlen : t.length = 508)
    (habs : HashTable.SymTable_contains t k = false) :
    (HashTable.SymTable_put t k v true).2 = true ∧
    (HashTable.SymTable_put t k v true).1.bucket_ct_i = 1 ∧
    HashTable.bucketCount (HashTable.SymTable_put t k v true).1 = 1021 := by
  have hbc : HashTable.bucketCount t = 509 := by
    rw [HashTable.bucketCount, hidx]
    rfl
  have hfull : t.length + 1 = HashTable.bucketCount t := by
    rw [hbc, hlen]
  have htrig := HashTable.SymTable_put_triggers_resize v true habs hfull
  have hinsfull : (HashTable.insertStep t k v).length =
      HashTable.bucketCount (HashTable.insertStep t k v) := hfull
  have hinsidx : (HashTable.insertStep t k v).bucket_ct_i =
      t.bucket_ct_i := rfl
  have hnext : (HashTable.insertStep t k v).bucket_ct_i + 1 <
      HashTable.numBucketCounts := by
    rw [hinsidx, hidx]
    decide
  have hgrow := HashTable.SymTable_resize_grow hinsfull hnext
  refine ⟨by rw [htrig], ?_, ?_⟩
  · rw [htrig]
    show (HashTable.SymTable_resize true
      (HashTable.insertStep t k v)).1.bucket_ct_i = 1
    rw [hgrow]
    show (HashTable.insertStep t k v).bucket_ct_i + 1 = 1
    rw [hinsidx, hidx]
  · rw [HashTable.bucketCount, htrig]
    show HashTable.auBucketCounts.getD (HashTable.SymTable_resize true
      (HashTable.insertStep t k v)).1.bucket_ct_i 0 = 1021
    rw [hgrow]
    show HashTable.auBucketCounts.getD
      ((HashTable.insertStep t k v).bucket_ct_i + 1) 0 = 1021
    rw [hinsidx, hidx]
    rfl

theorem scenarioTable_509 :
    (HashTable.SymTable_put (scenarioTable 508) (kKey 508) (some 508)
      true).2 = true ∧
    (scenarioTable 508).bucket_ct_i = 0 ∧
    (scenarioTable 509).bucket_ct_i = 1 ∧
    HashTable.bucketCount (scenarioTable 509) = 1021 := by
  have hidx := scenarioTable_idx 508 (by omega)
  have hlen := scenarioTable_length (by omega : (508 : Nat) ≤ 509)
  have habs := scenario_contains_false (by omega : (508 : Nat) ≤ 509)
  have h509eq := scenarioTable_take_succ (by omega : (508 : Nat) < 509)
  rw [show (508 : Nat) + 1 = 509 from rfl] at h509eq
  obtain ⟨h1, h2, h3⟩ :=
    put_at_first_boundary (kKey 508) (some 508) hidx hlen habs
  exact ⟨h1, hidx, h509eq ▸ h2, h509eq ▸ h3⟩

/-! ### The hash as the spec words it, and WF under arbitrary put
sequences -/

/-- The hash written as the spec's words describe it: plain polynomial
accumulation `hash = hash * 65599 + byte` over the key bytes (the
wraparound applied once at the end, as a single `mod 2 ^ 64`). -/
def specPolyHash (key : List Nat) : Nat :=
  key.foldl (fun h c => h * 65599 + c) 0

theorem foldl_hash_mod (key : List Nat) :
    ∀ a : Nat,
    key.foldl (fun h c => (h * 65599 + c) % 2 ^ 64) (a % 2 ^ 64) =
      (key.foldl (fun h c => h * 65599 + c) a) % 2 ^ 64 := by
  induction key with
  | nil => intro a; rfl
  | cons c rest ih =>
    intro a
    rw [List.foldl_cons, List.foldl_cons]
    rw [show (a % 2 ^ 64 * 65599 + c) % 2 ^ 64 =
        (a * 65599 + c) % 2 ^ 64 by
      rw [Nat.add_mod, Nat.mod_mul_mod, ← Nat.add_mod]]
    exact ih (a * 65599 + c)

theorem HashTable.WF_put {V : Type} {t : HashTable.SymTable V} (k : Key)
    (v : Ptr V) (ok : Bool) (h : HashTable.WF t) :
    HashTable.WF (HashTable.SymTable_put t k v ok).1 := by
  cases hc : HashTable.SymTable_contains t k with
  | true => rw [HashTable.SymTable_put_dup v ok hc]; exact h
  | false => exact (HashTable.SymTable_put_fresh v ok h hc).2.1

theorem HashTable.WF_putAll {V : Type} :
    ∀ (kvs : List (Key × Ptr V)) (t : HashTable.SymTable V),
    HashTable.WF t → HashTable.WF (HashTable.putAll t kvs) := by
  intro kvs
  induction kvs with
  | nil => intro t h; exact h
  | cons kv rest ih =>
    intro t h
    exact ih _ (HashTable.WF_put kv.1 kv.2 true h)

/-- A sequence of `SymTable_put` calls into the list table. -/
def ListTable.putAll {V : Type} (t : ListTable.SymTable V) :
    List (Key × Ptr V) → ListTable.SymTable V
  | [] => t
  | kv :: rest => ListTable.putAll (ListTable.SymTable_put t kv.1 kv.2).1 rest

theorem ListTable.WF_put_listAll_list {V : Type} :
    ∀ (kvs : List (Key × Ptr V)) (t : ListTable.SymTable V),
    ListTable.WF t → ListTable.WF (ListTable.putAll t kvs) := by
  intro kvs
  induction kvs with
  | nil => intro t h; exact h
  | cons kv rest ih =>
    intro t h
    exact ih _ (ListTable.WF_put_list kv.1 kv.2 h)

/-! ## The claims -/

/-- C1: HashTable growth correctness. For every sequence of distinct-key
inserts into a fresh HashTable (crossing any number of capacity
boundaries), every inserted and not-removed key is still retrievable by
`get` with its original value, and no rehash changes any `contains` or
`get` answer; concretely, inserting the 509 distinct keys
`"k0" .. "k508"` with values `0 .. 508` makes the 509th put trigger the
rehash to capacity 1021, after which lookup of `"k0"` yields `0` and
lookup of `"k508"` yields `508`. -/
theorem C1_growth_correctness :
    (∀ (V : Type) (kvs : List (Key × Ptr V)), (kvs.map Prod.fst).Nodup →
      ∀ kv ∈ kvs,
        HashTable.SymTable_get
          (HashTable.putAll (HashTable.SymTable_new V) kvs) kv.1 = kv.2) ∧
    (∀ (V : Type) (t : HashTable.SymTable V) (ok : Bool) (k : Key),
      HashTable.WF t →
      HashTable.SymTable_contains (HashTable.SymTable_resize ok t).1 k =
        HashTable.SymTable_contains t k ∧
      HashTable.SymTable_get (HashTable.SymTable_resize ok t).1 k =
        HashTable.SymTable_get t k) ∧
    (HashTable.SymTable_put (scenarioTable 508) (kKey 508) (some 508)
      true).2 = true ∧
    (scenarioTable 508).bucket_ct_i = 0 ∧
    (scenarioTable 509).bucket_ct_i = 1 ∧
    HashTable.bucketCount (scenarioTable 509) = 1021 ∧
    HashTable.SymTable_get (scenarioTable 509) (kKey 0) = some 0 ∧
    HashTable.SymTable_get (scenarioTable 509) (kKey 508) = some 508 := by
  obtain ⟨hs1, hs2, hs3, hs4⟩ := scenarioTable_509
  have htake : scenarioList.take 509 = scenarioList :=
    List.take_of_length_le (by rw [scenarioList_length])
  have hget509 := (scenarioTable_spec 509).2.2.1
  rw [htake] at hget509
  have hmem0 : ((kKey 0, some 0) : Key × Ptr Nat) ∈ scenarioList := by
    rw [scenarioList]
    exact List.mem_map.mpr ⟨0, List.mem_range.mpr (by omega), rfl⟩
  have hmem508 : ((kKey 508, some 508) : Key × Ptr Nat) ∈ scenarioList := by
    rw [scenarioList]
    exact List.mem_map.mpr ⟨508, List.mem_range.mpr (by omega), rfl⟩
  refine ⟨?_, ?_, hs1, hs2, hs3, hs4, ?_, ?_⟩
  · intro V kvs hnd kv hkv
    have habs : ∀ kv ∈ kvs, HashTable.SymTable_contains
        (HashTable.SymTable_new V) kv.1 = false :=
      fun kv _ => HashTable.contains_new_false kv.1
    have h := (HashTable.putAll_spec kvs (HashTable.SymTable_new V)
      (HashTable.WF_new V) hnd habs).2.2.1 kv hkv
    rw [HashTable.SymTable_get_eq, h]
    rfl
  · intro V t ok k hwf
    obtain ⟨_, _, _, hlook⟩ := HashTable.SymTable_resize_master hwf ok
    constructor
    · rw [HashTable.SymTable_contains_eq, HashTable.SymTable_contains_eq,
        hlook k]
    · rw [HashTable.SymTable_get_eq, HashTable.SymTable_get_eq, hlook k]
  · rw [HashTable.SymTable_get_eq, hget509 _ hmem0]
    rfl
  · rw [HashTable.SymTable_get_eq, hget509 _ hmem508]
    rfl

/-- Witness for C1: the general distinct-key round-trip conjunct
evaluated on a one-element insert sequence. -/
theorem C1_growth_correctness_witness :
    HashTable.SymTable_get
      (HashTable.putAll (HashTable.SymTable_new Nat) [([97], some 5)])
      [97] = some 5 :=
  C1_growth_correctness.1 Nat [([97], some 5)] (by decide)
    ([97], some 5) (List.mem_cons_self ..)

/-- C2: HashTable rehash step. The capacity sequence is exactly 509,
1021, 2039, 4093, 8191, 16381, 32749, 65521; a successful put that makes
`length` equal the current capacity hands the table to the resize; when a
next capacity exists the resize advances `bucket_ct_i` by exactly one,
keeps `length`, relinks exactly the existing bindings (the binding
multiset is preserved — keys and values untouched) and places every
binding in the bucket its key hashes to under the new capacity; at the
maximal capacity 65521 the resize is a no-op. -/
theorem C2_rehash_step :
    HashTable.auBucketCounts =
      [509, 1021, 2039, 4093, 8191, 16381, 32749, 65521] ∧
    (∀ (V : Type) (t : HashTable.SymTable V) (k : Key) (v : Ptr V)
      (ok : Bool), HashTable.SymTable_contains t k = false →
      t.length + 1 = HashTable.bucketCount t →
      HashTable.SymTable_put t k v ok =
        ((HashTable.SymTable_resize ok (HashTable.insertStep t k v)).1,
         true)) ∧
    (∀ (V : Type) (t : HashTable.SymTable V),
      t.length = HashTable.bucketCount t →
      t.bucket_ct_i + 1 < HashTable.numBucketCounts →
      (HashTable.SymTable_resize true t).2 = true ∧
      (HashTable.SymTable_resize true t).1.bucket_ct_i =
        t.bucket_ct_i + 1 ∧
      (HashTable.SymTable_resize true t).1.length = t.length ∧
      (HashTable.SymTable_resize true t).1.buckets.flatten.Perm
        t.buckets.flatten ∧
      (∀ j b, b ∈ (HashTable.SymTable_resize true t).1.buckets.getD j [] →
        HashTable.SymTable_hash b.1
          (HashTable.bucketCount (HashTable.SymTable_resize true t).1) =
          j)) ∧
    (∀ (V : Type) (t : HashTable.SymTable V) (ok : Bool),
      t.bucket_ct_i = HashTable.numBucketCounts - 1 →
      HashTable.SymTable_resize ok t = (t, false)) ∧
    HashTable.auBucketCounts.getD (HashTable.numBucketCounts - 1) 0 =
      65521 := by
  refine ⟨rfl, ?_, ?_, ?_, rfl⟩
  · intro V t k v ok habs hfull
    exact HashTable.SymTable_put_triggers_resize v ok habs hfull
  · intro V t hfull hnext
    have hgrow := HashTable.SymTable_resize_grow hfull hnext
    have hn := HashTable.auBucketCounts_getD_pos hnext
    rw [hgrow]
    exact ⟨rfl, rfl, rfl,
      HashTable.rehashInto_flatten_perm t.buckets hn,
      fun j b hb => HashTable.rehashInto_placed t.buckets _ j b hb⟩
  · intro V t ok hmax
    exact HashTable.SymTable_resize_at_max ok hmax

/-- Witness for C2: the grow conjunct applied to a concrete full table
at the first capacity. -/
theorem C2_rehash_step_witness :
    ((HashTable.SymTable_resize true
      (⟨509, 0, List.replicate 509 []⟩ : HashTable.SymTable Nat)).1
      ).bucket_ct_i = 0 + 1 :=
  (C2_rehash_step.2.2.1 Nat ⟨509, 0, List.replicate 509 []⟩
    (by decide) (by decide)).2.1

/-- A put into a well-formed table whose insertion lands exactly on the
capacity boundary, with the growth allocation failing: the insertion
still reports success (return 1), the inserted binding is kept, the
table stays well-formed at its old capacity — and growth is only
attempted again by a put that once more makes `length` equal the
capacity, which the immediately following puts do not. -/
theorem C3_growth_alloc_failure (V : Type) (t : HashTable.SymTable V)
    (k : Key) (v : Ptr V) (hwf : HashTable.WF t)
    (habs : HashTable.SymTable_contains t k = false)
    (hfull : t.length + 1 = HashTable.bucketCount t) :
    HashTable.SymTable_put t k v false =
      (HashTable.insertStep t k v, true) ∧
    HashTable.SymTable_get (HashTable.insertStep t k v) k = v ∧
    HashTable.WF (HashTable.insertStep t k v) ∧
    (HashTable.insertStep t k v).bucket_ct_i = t.bucket_ct_i ∧
    (HashTable.insertStep t k v).length = t.length + 1 ∧
    (∀ (k₂ : Key) (v₂ : Ptr V) (ok : Bool),
      HashTable.SymTable_contains (HashTable.insertStep t k v) k₂ =
        false →
      HashTable.SymTable_put (HashTable.insertStep t k v) k₂ v₂ ok =
        (HashTable.insertStep (HashTable.insertStep t k v) k₂ v₂,
         true) ∧
      (HashTable.insertStep (HashTable.insertStep t k v) k₂
        v₂).bucket_ct_i = t.bucket_ct_i) := by
  obtain ⟨hwf1, hlen1, hidx1, hself1, _⟩ :=
    HashTable.insertStep_spec v hwf habs
  have htrig := HashTable.SymTable_put_triggers_resize v false habs hfull
  rw [HashTable.SymTable_resize_alloc_fail] at htrig
  refine ⟨htrig, ?_, hwf1, hidx1, hlen1, ?_⟩
  · rw [HashTable.SymTable_get_eq, HashTable.lookupEntry] at *
    rw [hself1]
    rfl
  · intro k₂ v₂ ok habs₂
    have hnofull : (HashTable.insertStep t k v).length + 1 ≠
        HashTable.bucketCount (HashTable.insertStep t k v) := by
      rw [hlen1]
      rw [show HashTable.bucketCount (HashTable.insertStep t k v) =
        HashTable.bucketCount t from rfl]
      omega
    exact ⟨HashTable.SymTable_put_no_resize v₂ ok habs₂ hnofull, rfl⟩

/-- Witness for C3 (amended): the deferred-growth put applied at the
full scenario table. -/
theorem C3_growth_alloc_failure_witness :
    HashTable.SymTable_put (scenarioTable 508) (kKey 508) (some 508)
      false =
      (HashTable.insertStep (scenarioTable 508) (kKey 508) (some 508),
       true) :=
  (C3_growth_alloc_failure Nat (scenarioTable 508) (kKey 508) (some 508)
    (scenarioTable_spec 508).1
    (scenario_contains_false (by omega))
    (by rw [scenarioTable_length (by omega : (508 : Nat) ≤ 509),
      HashTable.bucketCount, scenarioTable_idx 508 (by omega)]; rfl)).1

/-- After a deferred growth at the 509-binding boundary, the very next
put of a fresh key does not grow the table: its insertion makes
`length` 510, which never again equals the passed capacity 509. -/
theorem deferred_growth_not_retried {V : Type} {t : HashTable.SymTable V}
    (k₁ k₂ : Key) (v₁ v₂ : Ptr V) (hwf : HashTable.WF t)
    (hidx : t.bucket_ct_i = 0) (hlen : t.length = 508)
    (habs1 : HashTable.SymTable_contains t k₁ = false)
    (hk21 : k₂ ≠ k₁) (hfresh2 : HashTable.lookupEntry t k₂ = none) :
    (HashTable.SymTable_put t k₁ v₁ false).2 = true ∧
    (HashTable.SymTable_put t k₁ v₁ false).1.bucket_ct_i = 0 ∧
    (HashTable.SymTable_put t k₁ v₁ false).1.length = 509 ∧
    (HashTable.SymTable_put
      (HashTable.SymTable_put t k₁ v₁ false).1 k₂ v₂ true).2 = true ∧
    (HashTable.SymTable_put
      (HashTable.SymTable_put t k₁ v₁ false).1 k₂ v₂
      true).1.bucket_ct_i = 0 ∧
    (HashTable.SymTable_put
      (HashTable.SymTable_put t k₁ v₁ false).1 k₂ v₂ true).1.length =
      510 := by
  have hfull : t.length + 1 = HashTable.bucketCount t := by
    rw [hlen, HashTable.bucketCount, hidx]
    rfl
  obtain ⟨hwf1, hlen1, hidx1, hself1, hother⟩ :=
    HashTable.insertStep_spec v₁ hwf habs1
  have heq := HashTable.SymTable_put_triggers_resize v₁ false habs1 hfull
  rw [HashTable.SymTable_resize_alloc_fail] at heq
  have habs2 : HashTable.SymTable_contains
      (HashTable.insertStep t k₁ v₁) k₂ = false := by
    rw [HashTable.SymTable_contains_eq, hother k₂ hk21, hfresh2]
    rfl
  have hnofull : (HashTable.insertStep t k₁ v₁).length + 1 ≠
      HashTable.bucketCount (HashTable.insertStep t k₁ v₁) := by
    rw [hlen1, show HashTable.bucketCount (HashTable.insertStep t k₁ v₁)
      = HashTable.bucketCount t from rfl]
    omega
  have hput2 := HashTable.SymTable_put_no_resize v₂ true habs2 hnofull
  rw [heq]
  refine ⟨rfl, ?_, ?_, ?_, ?_, ?_⟩
  · show (HashTable.insertStep t k₁ v₁).bucket_ct_i = 0
    rw [hidx1, hidx]
  · show (HashTable.insertStep t k₁ v₁).length = 509
    rw [hlen1, hlen]
  · show (HashTable.SymTable_put (HashTable.insertStep t k₁ v₁) k₂ v₂
      true).2 = true
    rw [hput2]
  · show (HashTable.SymTable_put (HashTable.insertStep t k₁ v₁) k₂ v₂
      true).1.bucket_ct_i = 0
    rw [hput2]
    show (HashTable.insertStep t k₁ v₁).bucket_ct_i = 0
    rw [hidx1, hidx]
  · show (HashTable.SymTable_put (HashTable.insertStep t k₁ v₁) k₂ v₂
      true).1.length = 510
    rw [hput2]
    show (HashTable.insertStep t k₁ v₁).length + 1 = 510
    rw [hlen1, hlen]

/-- Counterexample to C3 as stated: after the deferred (allocation-
failed) growth at the 509-binding boundary, growth is NOT simply
"deferred to a later put" — the very next put leaves the table at
capacity 509 with 510 bindings, because the `length == capacity`
trigger has been passed. -/
theorem C3_counterexample :
    (HashTable.SymTable_put (scenarioTable 508) (kKey 508) (some 508)
      false).2 = true ∧
    (HashTable.SymTable_put (scenarioTable 508) (kKey 508) (some 508)
      false).1.bucket_ct_i = 0 ∧
    (HashTable.SymTable_put (scenarioTable 508) (kKey 508) (some 508)
      false).1.length = 509 ∧
    (HashTable.SymTable_put
      (HashTable.SymTable_put (scenarioTable 508) (kKey 508) (some 508)
        false).1 (kKey 509) (some 509) true).2 = true ∧
    (HashTable.SymTable_put
      (HashTable.SymTable_put (scenarioTable 508) (kKey 508) (some 508)
        false).1 (kKey 509) (some 509) true).1.bucket_ct_i = 0 ∧
    (HashTable.SymTable_put
      (HashTable.SymTable_put (scenarioTable 508) (kKey 508) (some 508)
        false).1 (kKey 509) (some 509) true).1.length = 510 :=
  deferred_growth_not_retried (kKey 508) (kKey 509) (some 508)
    (some 509) (scenarioTable_spec 508).1
    (scenarioTable_idx 508 (by omega))
    (scenarioTable_length (by omega : (508 : Nat) ≤ 509))
    (scenario_contains_false (by omega : (508 : Nat) ≤ 509))
    (by decide)
    ((scenarioTable_spec 508).2.2.2 (kKey 509)
      (scenario_key_not_in_take (by omega) (by omega)))

/-- C4 (amended): `get`, `replace` and `remove` return `NULL` (`none`)
for an absent key; for a bound key they return the stored value
reference — which coincides with the absent marker exactly when the
stored value is the NULL reference. Presence is distinguished by
`contains`, which reports a bound key even when its value is NULL; the
return value alone does not distinguish the two. Holds for both
implementations. -/
theorem C4_absent_marker (V : Type) (t : ListTable.SymTable V)
    (th : HashTable.SymTable V) (k : Key) (v : Ptr V) :
    (ListTable.SymTable_contains t k = false →
      ListTable.SymTable_get t k = none ∧
      ListTable.SymTable_replace t k v = (t, none) ∧
      ListTable.SymTable_remove t k = (t, none)) ∧
    (∀ w, chainAssoc t.head k = some w →
      ListTable.SymTable_contains t k = true ∧
      ListTable.SymTable_get t k = w) ∧
    (HashTable.SymTable_contains th k = false →
      HashTable.SymTable_get th k = none ∧
      HashTable.SymTable_replace th k v = (th, none) ∧
      HashTable.SymTable_remove th k = (th, none)) ∧
    (∀ w, HashTable.lookupEntry th k = some w →
      HashTable.SymTable_contains th k = true ∧
      HashTable.SymTable_get th k = w) := by
  refine ⟨?_, ?_, ?_, ?_⟩
  · intro hc
    have hnone : chainAssoc t.head k = none := by
      rcases hopt : chainAssoc t.head k with _ | w
      · rfl
      · rw [ListTable.contains_eq_isSome, hopt] at hc
        exact Bool.noConfusion hc
    exact ⟨by rw [ListTable.get_eq_getD, hnone]; rfl,
      ListTable.replace_absent_noop v hnone,
      ListTable.remove_absent_noop hnone⟩
  · intro w hw
    exact ⟨by rw [ListTable.contains_eq_isSome, hw]; rfl,
      by rw [ListTable.get_eq_getD, hw]; rfl⟩
  · intro hc
    have hnone : chainAssoc (HashTable.bucketFor th k) k = none := by
      rcases hopt : chainAssoc (HashTable.bucketFor th k) k with _ | w
      · rfl
      · rw [HashTable.SymTable_contains_eq, HashTable.lookupEntry,
          hopt] at hc
        exact Bool.noConfusion hc
    exact ⟨by rw [HashTable.SymTable_get_eq, HashTable.lookupEntry,
        hnone]; rfl,
      HashTable.SymTable_replace_absent v hnone,
      HashTable.SymTable_remove_absent hnone⟩
  · intro w hw
    exact ⟨by rw [HashTable.SymTable_contains_eq, hw]; rfl,
      by rw [HashTable.SymTable_get_eq, hw]; rfl⟩

/-- Witness for C4 (amended): an absent key on the fresh list table
yields the NULL result from `get`. -/
theorem C4_absent_marker_witness :
    ListTable.SymTable_get (ListTable.SymTable_new Nat) [97] = none :=
  ((C4_absent_marker Nat (ListTable.SymTable_new Nat)
    (HashTable.SymTable_new Nat) [97] (some 1)).1 (by decide)).1

/-- Counterexample to C4 as stated: a key bound to the NULL value
reference is NOT distinguishable from an absent key through the results
of `get`, `replace` or `remove` — both give `NULL` — in either
implementation; only `contains` tells them apart. -/
theorem C4_counterexample :
    ListTable.SymTable_get
      (ListTable.SymTable_put (ListTable.SymTable_new Nat) [97]
        none).1 [97] =
      ListTable.SymTable_get
        (ListTable.SymTable_put (ListTable.SymTable_new Nat) [97]
          none).1 [98] ∧
    (ListTable.SymTable_replace
      (ListTable.SymTable_put (ListTable.SymTable_new Nat) [97]
        none).1 [97] (some 7)).2 =
      (ListTable.SymTable_replace
        (ListTable.SymTable_put (ListTable.SymTable_new Nat) [97]
          none).1 [98] (some 7)).2 ∧
    (ListTable.SymTable_remove
      (ListTable.SymTable_put (ListTable.SymTable_new Nat) [97]
        none).1 [97]).2 =
      (ListTable.SymTable_remove
        (ListTable.SymTable_put (ListTable.SymTable_new Nat) [97]
          none).1 [98]).2 ∧
    ListTable.SymTable_contains
      (ListTable.SymTable_put (ListTable.SymTable_new Nat) [97]
        none).1 [97] = true ∧
    ListTable.SymTable_contains
      (ListTable.SymTable_put (ListTable.SymTable_new Nat) [97]
        none).1 [98] = false ∧
    HashTable.SymTable_get
      (HashTable.SymTable_put (HashTable.SymTable_new Nat) [97] none
        true).1 [97] =
      HashTable.SymTable_get
        (HashTable.SymTable_put (HashTable.SymTable_new Nat) [97] none
          true).1 [98] ∧
    HashTable.SymTable_contains
      (HashTable.SymTable_put (HashTable.SymTable_new Nat) [97] none
        true).1 [97] = true ∧
    HashTable.SymTable_contains
      (HashTable.SymTable_put (HashTable.SymTable_new Nat) [97] none
        true).1 [98] = false := by
  refine ⟨?_, ?_, ?_, ?_, ?_, ?_, ?_, ?_⟩ <;> decide

/-- C5: the hash is polynomial accumulation over the key bytes with
multiplier exactly 65599 and unsigned (64-bit) wraparound, reduced
modulo the bucket count, and its result is a valid bucket index below
the bucket count for every key — including keys with bytes above
127 (`char` is unsigned on the target platform). -/
theorem C5_hash_function (key : List Nat) (n : Nat) (h : 0 < n) :
    HashTable.SymTable_hash key n = specPolyHash key % 2 ^ 64 % n ∧
    HashTable.SymTable_hash key n < n := by
  refine ⟨?_, HashTable.SymTable_hash_lt key h⟩
  have h0 := foldl_hash_mod key 0
  rw [show (0 : Nat) % 2 ^ 64 = 0 from rfl] at h0
  rw [HashTable.SymTable_hash, specPolyHash, h0]

/-- Witness for C5: a key with a byte above 127. -/
theorem C5_hash_function_witness :
    HashTable.SymTable_hash [200, 75] 509 =
      specPolyHash [200, 75] % 2 ^ 64 % 509 ∧
    HashTable.SymTable_hash [200, 75] 509 < 509 :=
  C5_hash_function [200, 75] 509 (by decide)

/-- C6: a put of an already-bound key is a no-op returning 0 — the
table, including the existing binding's value and `length`, is
unchanged — in both implementations; consequently after any sequence of
puts into a fresh table, no key is bound twice. -/
theorem C6_duplicate_insert_noop :
    (∀ (V : Type) (t : ListTable.SymTable V) (k : Key) (v : Ptr V),
      ListTable.SymTable_contains t k = true →
      ListTable.SymTable_put t k v = (t, false)) ∧
    (∀ (V : Type) (t : HashTable.SymTable V) (k : Key) (v : Ptr V)
      (ok : Bool), HashTable.SymTable_contains t k = true →
      HashTable.SymTable_put t k v ok = (t, false)) ∧
    (∀ (V : Type) (kvs : List (Key × Ptr V)),
      ((ListTable.putAll (ListTable.SymTable_new V) kvs).head.map
        Prod.fst).Nodup) ∧
    (∀ (V : Type) (kvs : List (Key × Ptr V)),
      ((HashTable.putAll (HashTable.SymTable_new V)
        kvs).buckets.flatten.map Prod.fst).Nodup) := by
  refine ⟨?_, ?_, ?_, ?_⟩
  · intro V t k v h
    exact ListTable.put_dup_noop v h
  · intro V t k v ok h
    exact HashTable.SymTable_put_dup v ok h
  · intro V kvs
    exact (ListTable.WF_put_listAll_list kvs _ (ListTable.WF_new_list V)).2
  · intro V kvs
    exact (HashTable.WF_putAll kvs _ (HashTable.WF_new V)).2.2.2.1

/-- Witness for C6: a duplicate insert of `"a"` is rejected and leaves
the table untouched. -/
theorem C6_duplicate_insert_noop_witness :
    ListTable.SymTable_put
      (ListTable.SymTable_put (ListTable.SymTable_new Nat) [97]
        (some 1)).1 [97] (some 3) =
      ((ListTable.SymTable_put (ListTable.SymTable_new Nat) [97]
        (some 1)).1, false) :=
  C6_duplicate_insert_noop.1 Nat
    (ListTable.SymTable_put (ListTable.SymTable_new Nat) [97]
      (some 1)).1 [97] (some 3) (by decide)

/-- C7: `replace` on a bound key swaps in the new value reference and
returns the previous one; on an absent key it returns the absent marker
and does not insert; in both cases `length`, the set of bound keys, and
every other binding are unchanged — in both implementations. -/
theorem C7_replace_semantics :
    (∀ (V : Type) (t : ListTable.SymTable V) (k : Key) (v w : Ptr V),
      chainAssoc t.head k = some w →
      (ListTable.SymTable_replace t k v).2 = w ∧
      (ListTable.SymTable_replace t k v).1.length = t.length ∧
      ListTable.SymTable_get (ListTable.SymTable_replace t k v).1 k =
        v ∧
      (∀ k₂, k₂ ≠ k →
        ListTable.SymTable_get (ListTable.SymTable_replace t k v).1 k₂ =
          ListTable.SymTable_get t k₂) ∧
      (∀ k₂, ListTable.SymTable_contains
        (ListTable.SymTable_replace t k v).1 k₂ =
        ListTable.SymTable_contains t k₂)) ∧
    (∀ (V : Type) (t : ListTable.SymTable V) (k : Key) (v : Ptr V),
      chainAssoc t.head k = none →
      ListTable.SymTable_replace t k v = (t, none)) ∧
    (∀ (V : Type) (th : HashTable.SymTable V) (k : Key) (v w : Ptr V),
      chainAssoc (HashTable.bucketFor th k) k = some w →
      (HashTable.SymTable_replace th k v).2 = w ∧
      (HashTable.SymTable_replace th k v).1.length = th.length ∧
      HashTable.SymTable_get (HashTable.SymTable_replace th k v).1 k =
        v ∧
      (∀ k₂, k₂ ≠ k →
        HashTable.SymTable_get (HashTable.SymTable_replace th k v).1
          k₂ = HashTable.SymTable_get th k₂) ∧
      (∀ k₂, HashTable.SymTable_contains
        (HashTable.SymTable_replace th k v).1 k₂ =
        HashTable.SymTable_contains th k₂)) ∧
    (∀ (V : Type) (th : HashTable.SymTable V) (k : Key) (v : Ptr V),
      chainAssoc (HashTable.bucketFor th k) k = none →
      HashTable.SymTable_replace th k v = (th, none)) := by
  refine ⟨?_, ?_, ?_, ?_⟩
  · intro V t k v w hw
    exact ListTable.replace_found_spec v hw
  · intro V t k v hn
    exact ListTable.replace_absent_noop v hn
  · intro V th k v w hw
    exact HashTable.SymTable_replace_found v hw
  · intro V th k v hn
    exact HashTable.SymTable_replace_absent v hn

/-- Witness for C7: replacing the value of `"a"` returns the old value
1. -/
theorem C7_replace_semantics_witness :
    (ListTable.SymTable_replace
      (ListTable.SymTable_put (ListTable.SymTable_new Nat) [97]
        (some 1)).1 [97] (some 2)).2 = some 1 :=
  (C7_replace_semantics.1 Nat
    (ListTable.SymTable_put (ListTable.SymTable_new Nat) [97]
      (some 1)).1 [97] (some 2) (some 1) (by decide)).1

/-- C8: `remove` on a bound key unlinks that binding, decrements
`length` by one, returns the removed value reference, and makes a
subsequent `contains` false; on an absent key — including any key on an
empty table — it returns the absent marker and leaves the table,
including `length`, completely unchanged. -/
theorem C8_remove_semantics :
    (∀ (V : Type) (t : ListTable.SymTable V) (k : Key) (w : Ptr V),
      (t.head.map Prod.fst).Nodup → chainAssoc t.head k = some w →
      (ListTable.SymTable_remove t k).2 = w ∧
      (ListTable.SymTable_remove t k).1.length = t.length - 1 ∧
      ListTable.SymTable_contains (ListTable.SymTable_remove t k).1 k =
        false ∧
      (∀ k₂, k₂ ≠ k →
        ListTable.SymTable_get (ListTable.SymTable_remove t k).1 k₂ =
          ListTable.SymTable_get t k₂ ∧
        ListTable.SymTable_contains (ListTable.SymTable_remove t k).1
          k₂ = ListTable.SymTable_contains t k₂)) ∧
    (∀ (V : Type) (t : ListTable.SymTable V) (k : Key),
      chainAssoc t.head k = none →
      ListTable.SymTable_remove t k = (t, none)) ∧
    (∀ (V : Type) (th : HashTable.SymTable V) (k : Key) (w : Ptr V),
      HashTable.WF th → chainAssoc (HashTable.bucketFor th k) k =
        some w →
      (HashTable.SymTable_remove th k).2 = w ∧
      (HashTable.SymTable_remove th k).1.length = th.length - 1 ∧
      HashTable.SymTable_contains (HashTable.SymTable_remove th k).1 k =
        false ∧
      (∀ k₂, k₂ ≠ k →
        HashTable.SymTable_get (HashTable.SymTable_remove th k).1 k₂ =
          HashTable.SymTable_get th k₂ ∧
        HashTable.SymTable_contains (HashTable.SymTable_remove th k).1
          k₂ = HashTable.SymTable_contains th k₂)) ∧
    (∀ (V : Type) (th : HashTable.SymTable V) (k : Key),
      chainAssoc (HashTable.bucketFor th k) k = none →
      HashTable.SymTable_remove th k = (th, none)) ∧
    (∀ (V : Type) (k : Key),
      ListTable.SymTable_remove (ListTable.SymTable_new V) k =
        (ListTable.SymTable_new V, none) ∧
      HashTable.SymTable_remove (HashTable.SymTable_new V) k =
        (HashTable.SymTable_new V, none)) := by
  refine ⟨?_, ?_, ?_, ?_, ?_⟩
  · intro V t k w hn hw
    exact ListTable.remove_found_behavior hn hw
  · intro V t k hn
    exact ListTable.remove_absent_noop hn
  · intro V th k w hwf hw
    exact HashTable.SymTable_remove_found_spec hwf hw
  · intro V th k hn
    exact HashTable.SymTable_remove_absent hn
  · intro V k
    constructor
    · exact ListTable.remove_absent_noop rfl
    · refine HashTable.SymTable_remove_absent ?_
      rw [HashTable.bucketFor, show (HashTable.SymTable_new V).buckets =
        List.replicate 509 [] from rfl, getD_replicate_nil]
      rfl

/-- Witness for C8: removing `"a"` returns its value and empties the
table. -/
theorem C8_remove_semantics_witness :
    (ListTable.SymTable_remove
      (ListTable.SymTable_put (ListTable.SymTable_new Nat) [97]
        (some 1)).1 [97]).2 = some 1 :=
  (C8_remove_semantics.1 Nat
    (ListTable.SymTable_put (ListTable.SymTable_new Nat) [97]
      (some 1)).1 [97] (some 1) (by decide) (by decide)).1

/-- C9: `map` applies the callback exactly once per live binding — with
the counting callback the result is exactly `length` — visiting, for the
ListTable, the chain from `head` in order (most-recently-inserted first,
since a fresh put prepends), and, for the HashTable, the buckets in
ascending index order with each bucket's chain in link order (the
flattened bucket array); the visited key set is exactly the set of keys
`contains` reports. -/
theorem C9_map_enumeration :
    (∀ (V σ : Type) (t : ListTable.SymTable V)
      (f : Key → Ptr V → σ → σ) (s : σ),
      ListTable.SymTable_map t f s =
        t.head.foldl (fun a b => f b.1 b.2 a) s) ∧
    (∀ (V : Type) (t : ListTable.SymTable V), ListTable.WF t →
      ListTable.SymTable_map t (fun _ _ n => n + 1) 0 = t.length) ∧
    (∀ (V : Type) (t : ListTable.SymTable V) (k : Key),
      ListTable.SymTable_contains t k = true ↔
        k ∈ t.head.map Prod.fst) ∧
    (∀ (V : Type) (t : ListTable.SymTable V) (k : Key) (v : Ptr V),
      ListTable.SymTable_contains t k = false →
      (ListTable.SymTable_put t k v).1.head = (k, v) :: t.head) ∧
    (∀ (V σ : Type) (th : HashTable.SymTable V)
      (f : Key → Ptr V → σ → σ) (s : σ),
      HashTable.SymTable_map th f s =
        th.buckets.flatten.foldl (fun a b => f b.1 b.2 a) s) ∧
    (∀ (V : Type) (th : HashTable.SymTable V), HashTable.WF th →
      HashTable.SymTable_map th (fun _ _ n => n + 1) 0 = th.length) ∧
    (∀ (V : Type) (th : HashTable.SymTable V) (k : Key),
      HashTable.WF th →
      (HashTable.SymTable_contains th k = true ↔
        k ∈ th.buckets.flatten.map Prod.fst)) := by
  refine ⟨?_, ?_, ?_, ?_, ?_, ?_, ?_⟩
  · intro V σ t f s
    rfl
  · intro V t h
    show t.head.foldl (fun n _ => n + 1) 0 = t.length
    rw [foldl_add_one_eq_length, h.1]
    omega
  · intro V t k
    rw [ListTable.contains_eq_isSome]
    exact chainAssoc_isSome_iff t.head k
  · intro V t k v h
    rw [ListTable.put_fresh_prepend v h]
  · intro V σ th f s
    exact HashTable.SymTable_map_eq_flatten_foldl th f s
  · intro V th h
    rw [HashTable.SymTable_map_eq_flatten_foldl]
    show th.buckets.flatten.foldl (fun n _ => n + 1) 0 = th.length
    rw [foldl_add_one_eq_length, h.2.2.1]
    omega
  · intro V th k h
    exact HashTable.contains_iff_mem h k

/-- Witness for C9: the counting callback over a two-binding list table
returns its length 2. -/
theorem C9_map_enumeration_witness :
    ListTable.SymTable_map
      (ListTable.SymTable_put
        (ListTable.SymTable_put (ListTable.SymTable_new Nat) [97]
          (some 1)).1 [98] (some 2)).1 (fun _ _ n => n + 1) 0 =
      (ListTable.SymTable_put
        (ListTable.SymTable_put (ListTable.SymTable_new Nat) [97]
          (some 1)).1 [98] (some 2)).1.length :=
  C9_map_enumeration.2.1 Nat
    (ListTable.SymTable_put
      (ListTable.SymTable_put (ListTable.SymTable_new Nat) [97]
        (some 1)).1 [98] (some 2)).1 (by decide)

/-- C10: freeing a NULL handle. The hash implementation checks the
handle before any read and is a safe no-op; the list implementation
reads `oSymTable->head` (symtablelist.c line 54) before its null check
(line 57), so `SymTable_free(NULL)` dereferences NULL — undefined
behavior, modeled as `none`. The claim that both implementations are
safe is contradicted by the list implementation. -/
theorem C10_free_null :
    ListTable.SymTable_free (none : Option (ListTable.SymTable Nat)) =
      none ∧
    HashTable.SymTable_free (none : Option (HashTable.SymTable Nat)) =
      some () :=
  ⟨rfl, rfl⟩
